import Mathlib

/-!
Verification of the Triple Triad game engine and search code
(`src/game.rs`, `src/search.rs`).

The Rust code is shallowly embedded: machine integers become `Int`/`Nat`
(with explicit handling where overflow or underflow matters), fixed-size
arrays become lists, `f64` scores (which in this program only ever take
integer values, `f64::NEG_INFINITY` and `f64::INFINITY`, combined solely by
negation, `max` and comparisons) become the exact three-constructor `Score`
type, and code that panics (`unwrap` on an empty hand slot, out-of-bounds
indexing, `usize` underflow of a hand counter) is modelled as returning
`none`.
-/

/-- `enum Player { Red, Blue }` from game.rs. -/
inductive Player
  | Red
  | Blue
deriving DecidableEq, Repr

/-- `Player::other` (impl GamePlayer for Player). -/
def Player.other : Player → Player
  | .Red => .Blue
  | .Blue => .Red

/-- `enum Direction { North, South, West, East }` from game.rs. -/
inductive Direction
  | North
  | South
  | West
  | East
deriving DecidableEq, Repr

/-- `Direction::opposite`. -/
def Direction.opposite : Direction → Direction
  | .East => .West
  | .North => .South
  | .South => .North
  | .West => .East

/-- `enum Suit { Primal, Beastman, Scion, Garlean }` from game.rs. -/
inductive Suit
  | Primal
  | Beastman
  | Scion
  | Garlean
deriving DecidableEq, Repr

/-- `struct Modifiers([i32; 4])`: one integer delta per suit. -/
structure Modifiers where
  primal : Int
  beastman : Int
  scion : Int
  garlean : Int
deriving DecidableEq, Repr

/-- Indexing `modifiers[suit]`. -/
def Modifiers.get (m : Modifiers) : Suit → Int
  | .Primal => m.primal
  | .Beastman => m.beastman
  | .Scion => m.scion
  | .Garlean => m.garlean

/-- In-place `modifiers[suit] += d` (used for ascension/decension). -/
def Modifiers.add (m : Modifiers) (s : Suit) (d : Int) : Modifiers :=
  match s with
  | .Primal => { m with primal := m.primal + d }
  | .Beastman => { m with beastman := m.beastman + d }
  | .Scion => { m with scion := m.scion + d }
  | .Garlean => { m with garlean := m.garlean + d }

/-- `Modifiers::default()`: all four deltas zero. -/
def Modifiers.init : Modifiers := ⟨0, 0, 0, 0⟩

/-- `struct Rules`: the optional-rule boolean toggles from game.rs. -/
structure Rules where
  same : Bool := false
  plus : Bool := false
  order : Bool := false
  chaos : Bool := false
  reverse : Bool := false
  fallen_ace : Bool := false
  ascension : Bool := false
  decension : Bool := false
  swap : Bool := false
deriving DecidableEq, Repr

/-- `const MAX_VALUE: i32 = 10`. -/
def MAX_VALUE : Int := 10

/-- `struct Card { values: [i32; 4], suit: Option<Suit> }`.
The four values are indexed North, South, West, East (`Card::new(n,s,w,e,suit)`). -/
structure Card where
  north : Int
  south : Int
  west : Int
  east : Int
  suit : Option Suit
deriving DecidableEq, Repr

/-- `self.values[direction as usize]`. -/
def Card.value (c : Card) : Direction → Int
  | .North => c.north
  | .South => c.south
  | .West => c.west
  | .East => c.east

/-- `Card::get_modified_value`: base rank for the direction, plus the card's
suit delta (0 for a suitless card) clamped by `.min(MAX_VALUE).max(0)`. -/
def Card.get_modified_value (c : Card) (modifiers : Modifiers) (d : Direction) : Int :=
  c.value d + max (min ((c.suit.map modifiers.get).getD 0) MAX_VALUE) 0

/-- `Card::is_flipped_by`: is `self` (sitting in direction `d` relative to the
played card, i.e. the played card lies on `self`'s side `d`) beaten by `other`
just played next to it? -/
def Card.is_flipped_by (self other : Card) (d : Direction) (modifiers : Modifiers)
    (rules : Rules) : Bool :=
  let my_value := self.get_modified_value modifiers d
  let other_value := other.get_modified_value modifiers d.opposite
  if !rules.reverse then
    if rules.fallen_ace && (my_value == MAX_VALUE) && (other_value == 1) then
      true
    else
      other_value > my_value
  else
    if rules.fallen_ace && (my_value == 1) && (other_value == MAX_VALUE) then
      true
    else
      other_value < my_value

/-- `struct GameMove { player, card_idx, placement }`. -/
structure GameMove where
  player : Player
  card_idx : Nat
  placement : Nat
deriving DecidableEq, Repr

/-- The `f64` values used by the search: every evaluation is an integer, and
the only non-integer values that ever arise are `f64::NEG_INFINITY` and
`f64::INFINITY` (initial alpha/beta and the initial best value).  All
operations used on them (negation, `max`, comparisons, `partial_cmp`) are
exact on this domain, so this three-constructor type models them faithfully. -/
inductive Score
  | negInf
  | val (x : Int)
  | posInf
deriving DecidableEq, Repr

namespace Score

/-- The IEEE ordering restricted to the values that actually occur (no NaN). -/
def le : Score → Score → Prop
  | .negInf, _ => True
  | .val _, .negInf => False
  | .val a, .val b => a ≤ b
  | .val _, .posInf => True
  | .posInf, .negInf => False
  | .posInf, .val _ => False
  | .posInf, .posInf => True

def decLe : (a b : Score) → Decidable (Score.le a b)
  | .negInf, .negInf => .isTrue True.intro
  | .negInf, .val _ => .isTrue True.intro
  | .negInf, .posInf => .isTrue True.intro
  | .val _, .negInf => .isFalse fun h => h
  | .val a, .val b => inferInstanceAs (Decidable (a ≤ b))
  | .val _, .posInf => .isTrue True.intro
  | .posInf, .negInf => .isFalse fun h => h
  | .posInf, .val _ => .isFalse fun h => h
  | .posInf, .posInf => .isTrue True.intro

instance : LinearOrder Score where
  le := Score.le
  le_refl a := by cases a <;> simp [Score.le]
  le_trans a b c hab hbc := by
    cases a <;> cases b <;> cases c <;> simp_all [Score.le] <;> omega
  le_antisymm a b hab hba := by
    cases a <;> cases b <;> simp_all [Score.le] <;> omega
  le_total a b := by cases a <;> cases b <;> simp [Score.le] <;> omega
  decidableLE := Score.decLe

/-- Negation of a score (`-x` on `f64`). -/
def neg : Score → Score
  | .negInf => .posInf
  | .val x => .val (-x)
  | .posInf => .negInf

/-- `move_value.partial_cmp(&best_value)`: `f64::partial_cmp`, total here
because no NaN ever occurs. -/
def scmp (a b : Score) : Ordering :=
  if a < b then .lt else if b < a then .gt else .eq

end Score

/-- One hand slot: `Option<(i32, Card)>` (card id, card). -/
abbrev HandSlot := Option (Int × Card)

/-- `struct GameState`: the 9-cell board (row-major, 0=NW..8=SE), the two
10-slot hands, the active suit modifiers and the two `actual_hand_sizes`
counters.  `hands[0]` is Red's hand and `hands[1]` Blue's, matching
`Player::Red = 0`, `Player::Blue = 1`. -/
structure GameState where
  board : List (Option (Card × Player))
  handsRed : List HandSlot
  handsBlue : List HandSlot
  modifiers : Modifiers
  sizeRed : Nat
  sizeBlue : Nat
deriving DecidableEq, Repr

namespace GameState

/-- `self.hands[player]`. -/
def hands (s : GameState) : Player → List HandSlot
  | .Red => s.handsRed
  | .Blue => s.handsBlue

/-- `self.actual_hand_sizes[player]`. -/
def size (s : GameState) : Player → Nat
  | .Red => s.sizeRed
  | .Blue => s.sizeBlue

/-- Write `self.hands[player]`. -/
def setHand (s : GameState) (p : Player) (h : List HandSlot) : GameState :=
  match p with
  | .Red => { s with handsRed := h }
  | .Blue => { s with handsBlue := h }

/-- Write `self.actual_hand_sizes[player]`. -/
def setSize (s : GameState) (p : Player) (n : Nat) : GameState :=
  match p with
  | .Red => { s with sizeRed := n }
  | .Blue => { s with sizeBlue := n }

/-- `GameState::default()` as pushed by `Game::new`: empty board, empty
hands, zero modifiers, zero hand counters. -/
def init : GameState :=
  { board := List.replicate 9 none
    handsRed := List.replicate 10 none
    handsBlue := List.replicate 10 none
    modifiers := Modifiers.init
    sizeRed := 0
    sizeBlue := 0 }

/-- `GameState::is_game_over`: every board cell is occupied. -/
def is_game_over (s : GameState) : Bool :=
  s.board.all Option.isSome

/-- The number of board cells owned by `p` (the loop body of
`GameState::scores`). -/
def boardCount (s : GameState) (p : Player) : Nat :=
  s.board.countP fun cell =>
    match cell with
    | some (_, q) => q == p
    | none => false

/-- `GameState::scores` for one player: the player's `actual_hand_sizes`
entry plus one per board cell that player owns. -/
def score (s : GameState) (p : Player) : Nat :=
  s.size p + s.boardCount p

/-- `GameState::eval_position`: terminal boards score +100 / −30 / −100 by
comparing the two players' scores, non-terminal boards score the plain
integer differential. -/
def eval_position (s : GameState) (p : Player) : Score :=
  if s.is_game_over then
    match compare (s.score p) (s.score p.other) with
    | .gt => .val 100
    | .eq => .val (-30)
    | .lt => .val (-100)
  else
    .val ((s.score p : Int) - (s.score p.other : Int))

end GameState

/-- The inner loop (`'card_iter`) of `GameState::get_possible_moves`:
walk the hand slots starting at index `i`, emitting a move for each occupied
slot; with `first_card_only` set, stop after the first occupied slot. -/
def collectCards (p : Player) (pos : Nat) (first_card_only : Bool) :
    Nat → List HandSlot → List GameMove
  | _, [] => []
  | i, none :: rest => collectCards p pos first_card_only (i + 1) rest
  | i, some _ :: rest =>
    { player := p, card_idx := i, placement := pos } ::
      (if first_card_only then [] else collectCards p pos first_card_only (i + 1) rest)

/-- `GameState::get_possible_moves`: for each empty board cell (ascending),
for each occupied hand slot (ascending), emit a candidate move. -/
def GameState.get_possible_moves (s : GameState) (p : Player)
    (first_card_only : Bool) : List GameMove :=
  (List.range 9).flatMap fun candidate_position =>
    if (s.board.getD candidate_position none).isNone then
      collectCards p candidate_position first_card_only 0 (s.hands p)
    else
      []

/-- `Game::adjacency`: direction tag of the board edge from cell `a` to
cell `b`, if they are adjacent, from `a`'s perspective. -/
def adjacency (a b : Nat) : Option Direction :=
  if (a, b) ∈ [(0, 1), (1, 2), (3, 4), (4, 5), (6, 7), (7, 8)] then some .East
  else if (a, b) ∈ [(1, 0), (2, 1), (4, 3), (5, 4), (7, 6), (8, 7)] then some .West
  else if (a, b) ∈ [(0, 3), (1, 4), (2, 5), (3, 6), (4, 7), (5, 8)] then some .South
  else if (a, b) ∈ [(3, 0), (4, 1), (5, 2), (6, 3), (7, 4), (8, 5)] then some .North
  else none

/-- One iteration of the flip loop in `Game::apply_move`: if board cell
`idx` is occupied and adjacent to the target cell, re-evaluate its owner. -/
def flipCell (played : Card) (mover : Player) (modifiers : Modifiers) (rules : Rules)
    (placement idx : Nat) (cell : Option (Card × Player)) : Option (Card × Player) :=
  match cell, adjacency idx placement with
  | some (card, owner), some direction =>
    if card.is_flipped_by played direction modifiers rules then
      some (card, mover)
    else
      some (card, owner)
  | c, _ => c

/-- The whole flip loop of `Game::apply_move` (`possibly_adjacent in 0..9`),
as a structural walk of the board carrying the cell index. -/
def flipBoard (played : Card) (mover : Player) (modifiers : Modifiers) (rules : Rules)
    (placement : Nat) : Nat → List (Option (Card × Player)) → List (Option (Card × Player))
  | _, [] => []
  | i, cell :: rest =>
    flipCell played mover modifiers rules placement i cell ::
      flipBoard played mover modifiers rules placement (i + 1) rest

/-- The ascension / decension step of `Game::apply_move`. -/
def modUpdate (rules : Rules) (played : Card) (m : Modifiers) : Modifiers :=
  let m1 := if rules.ascension then
      match played.suit with
      | some su => m.add su 1
      | none => m
    else m
  if rules.decension then
    match played.suit with
    | some su => m1.add su (-1)
    | none => m1
  else m1

/-- The state transition of `Game::apply_move`, producing the snapshot that
is pushed onto the history.  Panics of the Rust code are modelled as `none`:
the `unwrap` of an unoccupied or out-of-range hand slot, the `usize`
underflow of `actual_hand_sizes -= 1` when the counter is 0, and the
out-of-bounds board write `board[mv.placement]`.  Flips are computed with
the pre-move modifiers, exactly as in the source (ascension/decension is
applied after the flip loop). -/
def applyMoveState (rules : Rules) (s : GameState) (m : GameMove) : Option GameState :=
  match (s.hands m.player).getD m.card_idx none with
  | none => none
  | some (_, played_card) =>
    if s.size m.player = 0 then none
    else if s.board.length ≤ m.placement then none
    else
      let hand2 := (s.hands m.player).set m.card_idx none
      let s1 := (s.setHand m.player hand2).setSize m.player (s.size m.player - 1)
      let board2 := flipBoard played_card m.player s.modifiers rules m.placement 0 s.board
      some { s1 with
              board := board2.set m.placement (some (played_card, m.player))
              modifiers := modUpdate rules played_card s.modifiers }

/-- `struct Game`: the snapshot history (here with the most recent snapshot,
the current state, at the HEAD of the list — the source keeps it at the back
of a `VecDeque`), the active rules, and the per-player human flags. -/
structure Game where
  history : List GameState
  rules : Rules
  humanRed : Bool
  humanBlue : Bool
deriving DecidableEq, Repr

namespace Game

/-- `self.humans[player]`. -/
def human (g : Game) : Player → Bool
  | .Red => g.humanRed
  | .Blue => g.humanBlue

/-- `Game::new(human_color)`. -/
def new (human_color : Player) : Game :=
  { history := [GameState.init]
    rules := {}
    humanRed := human_color == .Red
    humanBlue := human_color == .Blue }

/-- `Game::current_state` (the source unwraps; the history is never empty
along the operations modelled here). -/
def current_state (g : Game) : GameState :=
  g.history.headD GameState.init

/-- `<Game as SearchableGame>::get_possible_moves`: the current state's
moves, restricted to the first hand card iff the acting player is human and
the order rule is active. -/
def get_possible_moves (g : Game) (p : Player) : List GameMove :=
  g.current_state.get_possible_moves p (g.human p && g.rules.order)

/-- `<Game as SearchableGame>::evaluate_current_position_for`. -/
def evaluate_current_position_for (g : Game) (p : Player) : Score :=
  g.current_state.eval_position p

/-- `<Game as SearchableGame>::apply_move`: derive a snapshot from the
current state and push it onto the history. -/
def apply_move (g : Game) (m : GameMove) : Option Game :=
  (applyMoveState g.rules g.current_state m).map fun s =>
    { g with history := s :: g.history }

/-- `<Game as SearchableGame>::undo_last_moves`: pop the `n` most recent
snapshots (popping an empty history is a no-op, as for `VecDeque::pop_back`). -/
def undo_last_moves (g : Game) (n : Nat) : Game :=
  { g with history := g.history.drop n }

/-- `<Game as SearchableGame>::truncate_history_and_clone`. -/
def truncate_history_and_clone (g : Game) : Game :=
  { g with history := [g.current_state] }

end Game

/-- The part of a `Game` that the search recursion actually consults besides
the current state: the rules and the human flags.  `alpha_beta` mutates the
game by `apply_move` and restores it with `undo_last_moves(1)` before the
next sibling, so its net effect is a pure function of the current state and
this context; the embedding recurses on states directly. -/
structure SearchCtx where
  rules : Rules
  humanRed : Bool
  humanBlue : Bool
deriving DecidableEq, Repr

def SearchCtx.human (g : SearchCtx) : Player → Bool
  | .Red => g.humanRed
  | .Blue => g.humanBlue

def Game.ctx (g : Game) : SearchCtx :=
  ⟨g.rules, g.humanRed, g.humanBlue⟩

/-- `game.get_possible_moves(player, buffer)` as seen by the search. -/
def stateMoves (g : SearchCtx) (s : GameState) (p : Player) : List GameMove :=
  s.get_possible_moves p (g.human p && g.rules.order)

/-- The sibling loop of `alpha_beta` (search.rs lines 193-215): process the
remaining moves, carrying `alpha`, `best_value` and `best_moves`; `rec` is
the recursive call at one depth lower for the other player.  A move whose
application would panic in Rust (see `applyMoveState`) is skipped; such a
move is never produced by `get_possible_moves` on a well-formed state. -/
def abGo (rules : Rules) (s : GameState)
    (rec : GameState → Score → Score → List GameMove × Score)
    (beta : Score) :
    List GameMove → Score → Score → List GameMove → List GameMove × Score
  | [], _, best_value, best_moves => (best_moves, best_value)
  | m :: rest, alpha, best_value, best_moves =>
    match applyMoveState rules s m with
    | none => abGo rules s rec beta rest alpha best_value best_moves
    | some s2 =>
      let move_value := ((rec s2 beta.neg alpha.neg).2).neg
      let acc :=
        match Score.scmp move_value best_value with
        | .gt => (move_value, [m])
        | .eq => (best_value, best_moves ++ [m])
        | .lt => (best_value, best_moves)
      let alpha2 := max alpha acc.1
      if beta ≤ alpha2 then (acc.2, acc.1)
      else abGo rules s rec beta rest alpha2 acc.1 acc.2

/-- `alpha_beta` (search.rs): fail-soft negamax with alpha-beta pruning.
At depth 0 or with no moves, return the static evaluation for the player to
move; otherwise run the sibling loop with `best_value = NEG_INFINITY`. -/
def alphaBeta (g : SearchCtx) : Nat → GameState → Score → Score → Player →
    List GameMove × Score
  | 0, s, _, _, p => ([], s.eval_position p)
  | d + 1, s, alpha, beta, p =>
    match stateMoves g s p with
    | [] => ([], s.eval_position p)
    | m :: rest =>
      abGo g.rules s (fun s2 a b => alphaBeta g d s2 a b p.other) beta
        (m :: rest) alpha .negInf []

/-- Modelled from the spec ("brute-force minimax score over all move
sequences must equal alpha-beta's returned score"): plain negamax without
any pruning, with the same static evaluation at depth 0 and at move-less
states, and the same skip of unapplicable moves as `abGo`.  This is the
reference function claim C3 compares `alphaBeta` against. -/
def negamax (g : SearchCtx) : Nat → GameState → Player → Score
  | 0, s, p => s.eval_position p
  | d + 1, s, p =>
    match stateMoves g s p with
    | [] => s.eval_position p
    | m :: rest =>
      ((m :: rest).filterMap fun mv =>
          (applyMoveState g.rules s mv).map fun s2 => (negamax g d s2 p.other).neg).foldl
        max .negInf

/-- The true (un-pruned) value of one root move: apply it and negate the
opponent's negamax value at the remaining depth. -/
def rootValue (g : SearchCtx) (d : Nat) (s : GameState) (p : Player)
    (m : GameMove) : Score :=
  match applyMoveState g.rules s m with
  | some s2 => (negamax g d s2 p.other).neg
  | none => .negInf

/-- `struct MoveSelection` from `get_best_move_for_player`.  The win ratio
`(wins + 0.3 * ties) / N` is a rational number; `f64::NEG_INFINITY` of
`no_move_selection` is never compared (it is guarded by `mv.is_none()`), so
the placeholder value 0 is observationally equivalent. -/
structure MoveSelection where
  mv : Option GameMove
  win_ratio : Rat
deriving DecidableEq, Repr

def no_move_selection : MoveSelection := ⟨none, 0⟩

/-- `combine_move_selection`. -/
def combine_move_selection (sel1 sel2 : MoveSelection) : MoveSelection :=
  if sel1.mv.isNone then sel2
  else if sel2.mv.isNone then sel1
  else if sel1.win_ratio > sel2.win_ratio then sel1
  else sel2

/-- `get_best_move_for_player`: truncate-and-clone, run `alpha_beta` at
fixed depth 10 with the full window, then dispatch on the number of tied
best moves.  The Monte-Carlo phase draws 100 000 random playouts per
candidate; the resulting win ratio is abstracted as the parameter `ratio`
(any function of the candidate move), and rayon's nondeterministic parallel
`reduce` is modelled as the left fold with the same identity and combiner. -/
def get_best_move_for_player (ratio : GameMove → Rat) (g : Game) (p : Player) :
    Option GameMove × (Score × Option Rat) :=
  let g2 := g.truncate_history_and_clone
  let res := alphaBeta g2.ctx 10 g2.current_state .negInf .posInf p
  match res.1, res.2 with
  | [], score => (none, (score, none))
  | [m], score => (some m, (score, none))
  | best_moves, score =>
    let sel := (best_moves.map fun m => MoveSelection.mk (some m) (ratio m)).foldl
      combine_move_selection no_move_selection
    (sel.mv, (score, some sel.win_ratio))

/-- Number of occupied slots in a hand. -/
def handCount (h : List HandSlot) : Nat :=
  h.countP fun c => c.isSome

/-- Number of empty board cells. -/
def GameState.emptyCount (s : GameState) : Nat :=
  s.board.countP fun c => c.isNone

/-- States on which the search starting with `p` to move cannot panic: the
board has its real shape, and each player's `actual_hand_sizes` counter can
absorb every card that player can still play — the player to move plays at
most `⌈empty/2⌉` more cards, the opponent at most `⌊empty/2⌋`, and never
more than the occupied slots of the hand.  Every state the program builds
(`set_cards_in_hand` with `actual_size = 5`, `set_cards_for_npc` with up to
10 cards and counter 5, and everything reachable from those) satisfies this. -/
def GameState.SearchSafe (s : GameState) (p : Player) : Prop :=
  s.board.length = 9 ∧
  min (handCount (s.hands p)) ((s.emptyCount + 1) / 2) ≤ s.size p ∧
  min (handCount (s.hands p.other)) (s.emptyCount / 2) ≤ s.size p.other

instance (s : GameState) (p : Player) : Decidable (s.SearchSafe p) := by
  unfold GameState.SearchSafe; infer_instance

/-- Total of both hand counters plus the number of occupied board cells:
the quantity `apply_move` conserves. -/
def GameState.totalScore (s : GameState) : Nat :=
  s.board.countP (fun c => c.isSome) + s.sizeRed + s.sizeBlue

/-- Reachability by legal `apply_move` calls: each applied move targets an
empty cell (moves are only ever constructed for empty cells) and applies
without panicking. -/
inductive ReachState (rules : Rules) : GameState → GameState → Prop
  | refl (s : GameState) : ReachState rules s s
  | step {s t u : GameState} {m : GameMove} :
      ReachState rules s t →
      t.board.getD m.placement none = none →
      applyMoveState rules t m = some u →
      ReachState rules s u

/-! ### Basic lemmas about players, scores and folds -/

theorem Player.other_other (p : Player) : p.other.other = p := by
  cases p <;> rfl

namespace Score

theorem negInf_le (a : Score) : Score.negInf ≤ a := by
  cases a <;> exact trivial

theorem le_posInf (a : Score) : a ≤ Score.posInf := by
  cases a <;> exact trivial

theorem le_negInf_iff {a : Score} : a ≤ Score.negInf ↔ a = Score.negInf := by
  constructor
  · intro h
    exact le_antisymm h (negInf_le a)
  · rintro rfl; exact le_refl _

theorem posInf_le_iff {a : Score} : Score.posInf ≤ a ↔ a = Score.posInf := by
  constructor
  · intro h
    exact le_antisymm (le_posInf a) h
  · rintro rfl; exact le_refl _

theorem neg_neg (a : Score) : a.neg.neg = a := by
  cases a <;> simp [Score.neg]

theorem val_le_val {x y : Int} : (Score.val x ≤ Score.val y) ↔ x ≤ y := Iff.rfl

theorem neg_le_neg_iff {a b : Score} : a.neg ≤ b.neg ↔ b ≤ a := by
  cases a <;> cases b <;>
    simp [Score.neg, negInf_le, le_posInf, le_negInf_iff, posInf_le_iff, val_le_val]

theorem neg_lt_neg_iff {a b : Score} : a.neg < b.neg ↔ b < a := by
  rw [lt_iff_le_not_le, lt_iff_le_not_le, neg_le_neg_iff, neg_le_neg_iff]

theorem le_neg_iff {a b : Score} : a ≤ b.neg ↔ b ≤ a.neg := by
  conv_lhs => rw [← neg_neg a]
  rw [neg_le_neg_iff]

theorem neg_le_iff {a b : Score} : a.neg ≤ b ↔ b.neg ≤ a := by
  conv_lhs => rw [← neg_neg b]
  rw [neg_le_neg_iff]

theorem neg_eq_negInf_iff {a : Score} : a.neg = Score.negInf ↔ a = Score.posInf := by
  cases a <;> simp [Score.neg]

theorem neg_eq_posInf_iff {a : Score} : a.neg = Score.posInf ↔ a = Score.negInf := by
  cases a <;> simp [Score.neg]

theorem neg_inj {a b : Score} (h : a.neg = b.neg) : a = b := by
  have := congrArg Score.neg h
  rwa [neg_neg, neg_neg] at this

theorem scmp_eq_gt_iff {a b : Score} : a.scmp b = .gt ↔ b < a := by
  unfold Score.scmp
  rcases lt_trichotomy a b with h | h | h
  · simp [h, lt_asymm h]
  · simp [h, lt_irrefl]
  · simp [h, lt_asymm h]

theorem scmp_eq_eq_iff {a b : Score} : a.scmp b = .eq ↔ a = b := by
  unfold Score.scmp
  rcases lt_trichotomy a b with h | h | h
  · simp [h, ne_of_lt h]
  · simp [h, lt_irrefl]
  · simp [h, lt_asymm h, (ne_of_lt h).symm]

theorem scmp_eq_lt_iff {a b : Score} : a.scmp b = .lt ↔ a < b := by
  unfold Score.scmp
  rcases lt_trichotomy a b with h | h | h
  · simp [h]
  · simp [h, lt_irrefl]
  · simp [h, lt_asymm h]

theorem foldl_max_init (l : List Score) (b : Score) :
    l.foldl max b = max b (l.foldl max .negInf) := by
  induction l generalizing b with
  | nil => exact (max_eq_left (negInf_le b)).symm
  | cons x t ih =>
    simp only [List.foldl_cons]
    rw [ih (max b x), ih (max .negInf x), max_eq_right (negInf_le x), max_assoc]

theorem le_foldl_max (l : List Score) (b : Score) : b ≤ l.foldl max b := by
  rw [foldl_max_init]
  exact le_max_left _ _

theorem foldl_max_le {l : List Score} {b c : Score} (hb : b ≤ c)
    (h : ∀ x ∈ l, x ≤ c) : l.foldl max b ≤ c := by
  induction l generalizing b with
  | nil => exact hb
  | cons x t ih =>
    exact ih (max_le hb (h x (List.mem_cons_self x t)))
      fun y hy => h y (List.mem_cons_of_mem x hy)

theorem mem_le_foldl_max {l : List Score} {b x : Score} (hx : x ∈ l) :
    x ≤ l.foldl max b := by
  induction l generalizing b with
  | nil => cases hx
  | cons y t ih =>
    rcases List.mem_cons.1 hx with rfl | hx
    · exact le_trans (le_max_right b x) (le_foldl_max t _)
    · exact ih hx

theorem foldl_max_mono {l : List Score} {b c : Score} (h : b ≤ c) :
    l.foldl max b ≤ l.foldl max c := by
  induction l generalizing b c with
  | nil => exact h
  | cons x t ih => exact ih (max_le_max h (le_refl x))

end Score

/-- `eval_position` always returns a finite value. -/
theorem eval_position_isVal (s : GameState) (p : Player) :
    ∃ x : Int, s.eval_position p = .val x := by
  unfold GameState.eval_position
  split
  · rcases h : compare (s.score p) (s.score p.other) with _ | _ | _ <;> simp
  · exact ⟨_, rfl⟩



/-! ### Lemmas about the board transformation of `apply_move` -/

theorem adjacency_ne {a b : Nat} {d : Direction} (h : adjacency a b = some d) :
    a ≠ b := by
  rintro rfl
  unfold adjacency at h
  split_ifs at h with h1 h2 h3 h4 <;> simp_all [Prod.ext_iff] <;> omega

theorem flipCell_none (played : Card) (mover : Player) (modifiers : Modifiers)
    (rules : Rules) (placement i : Nat) :
    flipCell played mover modifiers rules placement i none = none := by
  unfold flipCell
  split <;> first | rfl | simp_all

theorem flipCell_isSome (played : Card) (mover : Player) (modifiers : Modifiers)
    (rules : Rules) (placement i : Nat) (cell : Option (Card × Player)) :
    (flipCell played mover modifiers rules placement i cell).isSome = cell.isSome := by
  unfold flipCell
  split
  · split <;> rfl
  · rfl

theorem flipCell_isNone (played : Card) (mover : Player) (modifiers : Modifiers)
    (rules : Rules) (placement i : Nat) (cell : Option (Card × Player)) :
    (flipCell played mover modifiers rules placement i cell).isNone = cell.isNone := by
  unfold flipCell
  split
  · split <;> rfl
  · rfl

theorem flipBoard_length (played : Card) (mover : Player) (modifiers : Modifiers)
    (rules : Rules) (placement : Nat) :
    ∀ (i : Nat) (l : List (Option (Card × Player))),
      (flipBoard played mover modifiers rules placement i l).length = l.length := by
  intro i l
  induction l generalizing i with
  | nil => rfl
  | cons c t ih => simp [flipBoard, ih]

theorem flipBoard_getElem? (played : Card) (mover : Player) (modifiers : Modifiers)
    (rules : Rules) (placement : Nat) :
    ∀ (i j : Nat) (l : List (Option (Card × Player))),
      (flipBoard played mover modifiers rules placement i l)[j]? =
        (l[j]?).map (flipCell played mover modifiers rules placement (i + j)) := by
  intro i j l
  induction l generalizing i j with
  | nil => simp [flipBoard]
  | cons c t ih =>
    cases j with
    | zero => simp [flipBoard]
    | succ j =>
      simp only [flipBoard, List.getElem?_cons_succ]
      rw [ih (i + 1) j]
      have harith : i + 1 + j = i + (j + 1) := by omega
      rw [harith]

theorem flipBoard_countP_isSome (played : Card) (mover : Player)
    (modifiers : Modifiers) (rules : Rules) (placement : Nat) :
    ∀ (i : Nat) (l : List (Option (Card × Player))),
      (flipBoard played mover modifiers rules placement i l).countP (fun c => c.isSome) =
        l.countP (fun c => c.isSome) := by
  intro i l
  induction l generalizing i with
  | nil => rfl
  | cons c t ih =>
    simp only [flipBoard, List.countP_cons, ih (i + 1), flipCell_isSome]

theorem flipBoard_countP_isNone (played : Card) (mover : Player)
    (modifiers : Modifiers) (rules : Rules) (placement : Nat) :
    ∀ (i : Nat) (l : List (Option (Card × Player))),
      (flipBoard played mover modifiers rules placement i l).countP (fun c => c.isNone) =
        l.countP (fun c => c.isNone) := by
  intro i l
  induction l generalizing i with
  | nil => rfl
  | cons c t ih =>
    simp only [flipBoard, List.countP_cons, ih (i + 1), flipCell_isNone] 

/-! ### Accessor lemmas for `GameState` updates -/

theorem GameState.hands_setHand_self (s : GameState) (p : Player) (h : List HandSlot) :
    (s.setHand p h).hands p = h := by
  cases p <;> rfl

theorem GameState.hands_setHand_other (s : GameState) (p : Player) (h : List HandSlot) :
    (s.setHand p h).hands p.other = s.hands p.other := by
  cases p <;> rfl

theorem GameState.size_setHand (s : GameState) (p q : Player) (h : List HandSlot) :
    (s.setHand p h).size q = s.size q := by
  cases p <;> cases q <;> rfl

theorem GameState.size_setSize_self (s : GameState) (p : Player) (n : Nat) :
    (s.setSize p n).size p = n := by
  cases p <;> rfl

theorem GameState.size_setSize_other (s : GameState) (p : Player) (n : Nat) :
    (s.setSize p n).size p.other = s.size p.other := by
  cases p <;> rfl

theorem GameState.hands_setSize (s : GameState) (p q : Player) (n : Nat) :
    (s.setSize p n).hands q = s.hands q := by
  cases p <;> cases q <;> rfl

theorem GameState.sizeRed_eq (s : GameState) : s.size .Red = s.sizeRed := rfl

theorem GameState.sizeBlue_eq (s : GameState) : s.size .Blue = s.sizeBlue := rfl

/-- Everything `applyMoveState rules s m = some s2` tells us about `s2`,
field by field. -/
theorem applyMoveState_spec {rules : Rules} {s : GameState} {m : GameMove}
    {s2 : GameState} (h : applyMoveState rules s m = some s2) :
    ∃ (cid : Int) (played : Card),
      (s.hands m.player).getD m.card_idx none = some (cid, played) ∧
      0 < s.size m.player ∧
      m.placement < s.board.length ∧
      s2.board = (flipBoard played m.player s.modifiers rules m.placement 0 s.board).set
          m.placement (some (played, m.player)) ∧
      s2.hands m.player = (s.hands m.player).set m.card_idx none ∧
      s2.hands m.player.other = s.hands m.player.other ∧
      s2.size m.player = s.size m.player - 1 ∧
      s2.size m.player.other = s.size m.player.other ∧
      s2.modifiers = modUpdate rules played s.modifiers := by
  unfold applyMoveState at h
  rcases hslot : (s.hands m.player).getD m.card_idx none with _ | ⟨cid, played⟩ <;>
    rw [hslot] at h
  · exact absurd h (by simp)
  · split_ifs at h with hsz hpl
    rcases Option.some.injEq .. ▸ h with rfl
    refine ⟨cid, played, rfl, by omega, by omega, ?_, ?_, ?_, ?_, ?_, ?_⟩ <;>
      cases hp : m.player <;>
      cases hq : m.player.other <;>
      simp_all [GameState.setHand, GameState.setSize, GameState.hands, GameState.size,
        Player.other]

/-! ### Canonical forms of move enumeration -/

/-- Filtering the occupied-slot indices of `c :: t` keeps `0` iff `c` is
occupied, and otherwise proceeds on `t` with all indices shifted up by one. -/
theorem filter_occupied_cons (c : HandSlot) (t : List HandSlot) :
    (List.range (c :: t).length).filter (fun j => (((c :: t).getD j none)).isSome) =
      (if c.isSome then [0] else []) ++
        ((List.range t.length).filter fun j => ((t.getD j none)).isSome).map Nat.succ := by
  rw [List.length_cons, List.range_succ_eq_map, List.filter_cons]
  rcases c with _ | c <;>
    simp [List.filter_map, Function.comp_def, List.getD_cons_succ]

/-- With `first_card_only = false` the inner loop emits one move per
occupied slot, slot indices ascending. -/
theorem collectCards_false (p : Player) (pos : Nat) :
    ∀ (i : Nat) (h : List HandSlot),
      collectCards p pos false i h =
        ((List.range h.length).filter fun j => (h.getD j none).isSome).map
          fun j => { player := p, card_idx := i + j, placement := pos } := by
  intro i h
  induction h generalizing i with
  | nil => rfl
  | cons c t ih =>
    rw [filter_occupied_cons]
    rcases c with _ | c
    · simp only [collectCards, ih (i + 1), Option.isSome_none, Bool.false_eq_true,
        if_false, List.nil_append, List.map_map]
      refine List.map_congr_left fun j hj => ?_
      simp only [Function.comp_apply, GameMove.mk.injEq, and_true, true_and]
      omega
    · simp only [collectCards, ih (i + 1), Option.isSome_some, if_true, List.map_map,
        List.cons_append, List.nil_append, List.map_cons, if_false, Bool.false_eq_true]
      refine List.cons_eq_cons.2 ⟨by simp, List.map_congr_left fun j hj => ?_⟩
      simp only [Function.comp_apply, GameMove.mk.injEq, and_true, true_and]
      omega

/-- With `first_card_only = true` the inner loop stops after the first
occupied slot: at most one move, for the lowest occupied slot index. -/
theorem collectCards_true (p : Player) (pos : Nat) :
    ∀ (i : Nat) (h : List HandSlot),
      collectCards p pos true i h =
        (((List.range h.length).filter fun j => (h.getD j none).isSome).take 1).map
          fun j => { player := p, card_idx := i + j, placement := pos } := by
  intro i h
  induction h generalizing i with
  | nil => rfl
  | cons c t ih =>
    rw [filter_occupied_cons]
    rcases c with _ | c
    · simp only [collectCards, ih (i + 1), Option.isSome_none, Bool.false_eq_true,
        if_false, List.nil_append, ← List.map_take, List.map_map]
      refine List.map_congr_left fun j hj => ?_
      simp only [Function.comp_apply, GameMove.mk.injEq, and_true, true_and]
      omega
    · simp [collectCards]

/-- Canonical form of `get_possible_moves` without the order restriction:
one move per (empty cell, occupied slot) pair, cells ascending then slots
ascending. -/
theorem get_possible_moves_false_eq (s : GameState) (p : Player) :
    s.get_possible_moves p false =
      (List.range 9).flatMap fun pos =>
        if (s.board.getD pos none).isNone then
          ((List.range (s.hands p).length).filter fun j =>
              ((s.hands p).getD j none).isSome).map
            fun j => { player := p, card_idx := j, placement := pos }
        else [] := by
  unfold GameState.get_possible_moves
  simp only [collectCards_false, Nat.zero_add]

/-- Canonical form of `get_possible_moves` with the order restriction: at
most one move per empty cell, for the lowest occupied slot index. -/
theorem get_possible_moves_true_eq (s : GameState) (p : Player) :
    s.get_possible_moves p true =
      (List.range 9).flatMap fun pos =>
        if (s.board.getD pos none).isNone then
          (((List.range (s.hands p).length).filter fun j =>
              ((s.hands p).getD j none).isSome).take 1).map
            fun j => { player := p, card_idx := j, placement := pos }
        else [] := by
  unfold GameState.get_possible_moves
  simp only [collectCards_true, Nat.zero_add]

/-- The facts every enumerated move satisfies: it belongs to the requested
player, targets an in-range empty cell, and references an occupied slot. -/
theorem mem_get_possible_moves {s : GameState} {p : Player} {flag : Bool}
    {m : GameMove} (h : m ∈ s.get_possible_moves p flag) :
    m.player = p ∧ m.placement < 9 ∧ s.board.getD m.placement none = none ∧
      ((s.hands p).getD m.card_idx none).isSome := by
  have key : ∃ pos ∈ List.range 9, (s.board.getD pos none).isNone ∧
      ∃ j ∈ (List.range (s.hands p).length).filter
          (fun j => ((s.hands p).getD j none).isSome),
        m = { player := p, card_idx := j, placement := pos } := by
    rcases flag with _ | _
    · rw [get_possible_moves_false_eq] at h
      rcases List.mem_flatMap.1 h with ⟨pos, hpos, hm⟩
      refine ⟨pos, hpos, ?_⟩
      rcases hempty : (s.board.getD pos none).isNone with _ | _
      · rw [hempty] at hm; simp at hm
      · rw [hempty] at hm
        simp only [if_true] at hm
        rcases List.mem_map.1 hm with ⟨j, hj, rfl⟩
        exact ⟨rfl, j, hj, rfl⟩
    · rw [get_possible_moves_true_eq] at h
      rcases List.mem_flatMap.1 h with ⟨pos, hpos, hm⟩
      refine ⟨pos, hpos, ?_⟩
      rcases hempty : (s.board.getD pos none).isNone with _ | _
      · rw [hempty] at hm; simp at hm
      · rw [hempty] at hm
        simp only [if_true] at hm
        rcases List.mem_map.1 hm with ⟨j, hj, rfl⟩
        exact ⟨rfl, j, List.mem_of_mem_take hj, rfl⟩
  rcases key with ⟨pos, hpos, hempty, j, hj, rfl⟩
  rcases List.mem_filter.1 hj with ⟨hjr, hjocc⟩
  exact ⟨rfl, List.mem_range.1 hpos, Option.isNone_iff_eq_none.1 hempty, hjocc⟩

/-! ### Conservation facts about `applyMoveState` -/

theorem countP_set_some_of_none {l : List (Option (Card × Player))} {i : Nat}
    {x : Card × Player} (hi : i < l.length) (hnone : l[i]? = some none) :
    (l.set i (some x)).countP (fun c => c.isSome) =
      l.countP (fun c => c.isSome) + 1 := by
  have hget : l[i] = none := by
    rcases List.getElem?_eq_some_iff.1 hnone with ⟨h1, h2⟩
    exact h2
  rw [List.countP_set _ _ _ _ hi, hget]
  simp

theorem countP_isNone_set_some_of_none {l : List (Option (Card × Player))} {i : Nat}
    {x : Card × Player} (hi : i < l.length) (hnone : l[i]? = some none) :
    (l.set i (some x)).countP (fun c => c.isNone) + 1 =
      l.countP (fun c => c.isNone) := by
  have hget : l[i] = none := by
    rcases List.getElem?_eq_some_iff.1 hnone with ⟨h1, h2⟩
    exact h2
  have hpos : 0 < l.countP (fun c : Option (Card × Player) => c.isNone) :=
    List.countP_pos_iff.2 ⟨none, List.getElem?_mem hnone, rfl⟩
  rw [List.countP_set _ _ _ _ hi, hget]
  simp only [Option.isNone_none, if_true, Option.isNone_some, Bool.false_eq_true,
    if_false, Nat.add_zero]
  omega

theorem handCount_set_none {h : List HandSlot} {i : Nat} {c : Int × Card}
    (hc : h.getD i none = some c) :
    handCount (h.set i none) + 1 = handCount h := by
  have hc2 : h[i]? = some (some c) := by
    rw [List.getD_eq_getElem?_getD] at hc
    rcases hg : h[i]? with _ | slot
    · rw [hg] at hc; simp at hc
    · rw [hg] at hc
      simp only [Option.getD_some] at hc
      rw [hc]
  rcases List.getElem?_eq_some_iff.1 hc2 with ⟨hi, hget⟩
  have hpos : 0 < handCount h :=
    List.countP_pos_iff.2 ⟨some c, List.getElem?_mem hc2, rfl⟩
  unfold handCount
  rw [List.countP_set _ _ _ _ hi, hget]
  simp only [Option.isSome_some, if_true, Option.isSome_none, Bool.false_eq_true,
    if_false, Nat.add_zero]
  unfold handCount at hpos
  omega

/-- The board cell written by `apply_move` was empty before (given the move
is legal), so its flipped image is still `none` right before the write. -/
theorem flipped_cell_none (rules : Rules) {s : GameState} {m : GameMove}
    (hleg : s.board.getD m.placement none = none)
    (hlen : m.placement < s.board.length) (played : Card) :
    (flipBoard played m.player s.modifiers rules m.placement 0 s.board)[m.placement]? =
      some none := by
  rw [flipBoard_getElem?]
  have : s.board[m.placement]? = some none := by
    rw [List.getD_eq_getElem?_getD] at hleg
    rcases hg : s.board[m.placement]? with _ | cell
    · exact absurd (List.getElem?_eq_none_iff.1 hg) (by omega)
    · rw [hg] at hleg
      simp only [Option.getD_some] at hleg
      rw [hleg]
  rw [this]
  simp [flipCell_none]

/-- A legal, successful `apply_move` conserves
(occupied cells) + (both hand counters). -/
theorem applyMoveState_totalScore {rules : Rules} {s : GameState} {m : GameMove}
    {s2 : GameState} (hleg : s.board.getD m.placement none = none)
    (h : applyMoveState rules s m = some s2) :
    s2.totalScore = s.totalScore := by
  rcases applyMoveState_spec h with
    ⟨cid, played, hslot, hsz, hlen, hboard, hhand, hhand2, hsize, hsize2, hmod⟩
  have hflen : (flipBoard played m.player s.modifiers rules m.placement 0 s.board).length
      = s.board.length := flipBoard_length ..
  have hcell := flipped_cell_none rules hleg hlen played
  have hocc : s2.board.countP (fun c => c.isSome) =
      s.board.countP (fun c => c.isSome) + 1 := by
    rw [hboard, countP_set_some_of_none (by omega) hcell,
      flipBoard_countP_isSome]
  have hsum : s2.sizeRed + s2.sizeBlue + 1 = s.sizeRed + s.sizeBlue := by
    cases hp : m.player <;>
      rw [hp] at hsize hsize2 hsz <;>
      simp only [Player.other, GameState.size] at hsize hsize2 hsz <;>
      omega
  unfold GameState.totalScore
  omega

/-- A legal, successful `apply_move` fills exactly one empty cell. -/
theorem applyMoveState_emptyCount {rules : Rules} {s : GameState} {m : GameMove}
    {s2 : GameState} (hleg : s.board.getD m.placement none = none)
    (h : applyMoveState rules s m = some s2) :
    s2.emptyCount + 1 = s.emptyCount := by
  rcases applyMoveState_spec h with
    ⟨cid, played, hslot, hsz, hlen, hboard, hhand, hhand2, hsize, hsize2, hmod⟩
  have hflen : (flipBoard played m.player s.modifiers rules m.placement 0 s.board).length
      = s.board.length := flipBoard_length ..
  have hcell := flipped_cell_none rules hleg hlen played
  unfold GameState.emptyCount
  rw [hboard, countP_isNone_set_some_of_none (by omega) hcell,
    flipBoard_countP_isNone]

/-! ### Search-safety: enumerated moves always apply and stay safe -/

theorem emptyCount_pos_of_cell {s : GameState} {i : Nat}
    (hlen : i < s.board.length) (hcell : s.board.getD i none = none) :
    0 < s.emptyCount := by
  have hcell2 : s.board[i]? = some none := by
    rw [List.getD_eq_getElem?_getD] at hcell
    rcases hg : s.board[i]? with _ | cell
    · exact absurd (List.getElem?_eq_none_iff.1 hg) (by omega)
    · rw [hg] at hcell
      simp only [Option.getD_some] at hcell
      rw [hcell]
  exact List.countP_pos_iff.2 ⟨none, List.getElem?_mem hcell2, rfl⟩

theorem handCount_pos_of_slot {h : List HandSlot} {i : Nat}
    (hocc : (h.getD i none).isSome) : 0 < handCount h := by
  rcases Option.isSome_iff_exists.1 hocc with ⟨c, hc⟩
  have hc2 : h[i]? = some (some c) := by
    rw [List.getD_eq_getElem?_getD] at hc
    rcases hg : h[i]? with _ | slot
    · rw [hg] at hc; simp at hc
    · rw [hg] at hc
      simp only [Option.getD_some] at hc
      rw [hc]
  exact List.countP_pos_iff.2 ⟨some c, List.getElem?_mem hc2, rfl⟩

/-- The state produced by a successful `apply_move`. -/
def applyResult (rules : Rules) (s : GameState) (m : GameMove) (played : Card) : GameState :=
  let hand2 := (s.hands m.player).set m.card_idx none
  let s1 := (s.setHand m.player hand2).setSize m.player (s.size m.player - 1)
  { s1 with
      board := (flipBoard played m.player s.modifiers rules m.placement 0 s.board).set
          m.placement (some (played, m.player))
      modifiers := modUpdate rules played s.modifiers }

/-- Unfolding equation of `applyMoveState` once the hand slot is known. -/
theorem applyMoveState_eq (rules : Rules) (s : GameState) (m : GameMove)
    {cid : Int} {played : Card}
    (hslot : (s.hands m.player).getD m.card_idx none = some (cid, played)) :
    applyMoveState rules s m =
      if s.size m.player = 0 then none
      else if s.board.length ≤ m.placement then none
      else some (applyResult rules s m played) := by
  unfold applyMoveState applyResult
  rw [hslot]

/-- On a search-safe state, every enumerated move applies without panicking. -/
theorem applyMoveState_isSome_of_safe {g : SearchCtx} {s : GameState} {p : Player}
    {m : GameMove} (hs : s.SearchSafe p) (hm : m ∈ stateMoves g s p) :
    ∃ s2, applyMoveState g.rules s m = some s2 := by
  rcases mem_get_possible_moves hm with ⟨hpl, hplace, hempty, hocc⟩
  rcases hs with ⟨hlen, hself, _⟩
  have hhc := handCount_pos_of_slot hocc
  have hec : 0 < s.emptyCount := emptyCount_pos_of_cell (by omega) hempty
  have hsz : 0 < s.size p := by
    have : 0 < min (handCount (s.hands p)) ((s.emptyCount + 1) / 2) := by
      apply lt_min hhc
      omega
    omega
  rcases Option.isSome_iff_exists.1 hocc with ⟨⟨cid, played⟩, hslot⟩
  rw [← hpl] at hslot hsz
  rw [applyMoveState_eq g.rules s m hslot, if_neg (by omega), if_neg (by omega)]
  exact ⟨_, rfl⟩

/-- Applying an enumerated move on a search-safe state yields a state that
is search-safe for the opponent (who moves next). -/
theorem searchSafe_step {g : SearchCtx} {s : GameState} {p : Player}
    {m : GameMove} {s2 : GameState} (hs : s.SearchSafe p)
    (hm : m ∈ stateMoves g s p) (h : applyMoveState g.rules s m = some s2) :
    s2.SearchSafe p.other := by
  rcases mem_get_possible_moves hm with ⟨hpl, hplace, hempty, hocc⟩
  rcases applyMoveState_spec h with
    ⟨cid, played, hslot, hsz, hlen, hboard, hhand, hhand2, hsize, hsize2, hmod⟩
  rcases hs with ⟨hlen9, hself, hother⟩
  subst hpl
  have hhc := handCount_pos_of_slot hocc
  have hec : 0 < s.emptyCount :=
    emptyCount_pos_of_cell (by omega) hempty
  have hec2 : s2.emptyCount + 1 = s.emptyCount :=
    applyMoveState_emptyCount hempty h
  have hlen2 : s2.board.length = 9 := by
    rw [hboard, List.length_set, flipBoard_length]
    exact hlen9
  have hhc2 : handCount (s2.hands m.player) + 1 = handCount (s.hands m.player) := by
    rw [hhand]
    rcases Option.isSome_iff_exists.1 hocc with ⟨c, hc⟩
    exact handCount_set_none hc
  refine ⟨hlen2, ?_, ?_⟩
  · rw [hhand2, hsize2]
    omega
  · rw [Player.other_other]
    omega

/-! ### The flip condition as a proposition -/

/-- `Card::is_flipped_by`, restated as a proposition over effective ranks. -/
theorem is_flipped_by_iff {self other : Card} {d : Direction} {modifiers : Modifiers}
    {rules : Rules} :
    self.is_flipped_by other d modifiers rules = true ↔
      ((rules.reverse = false ∧
          (self.get_modified_value modifiers d <
              other.get_modified_value modifiers d.opposite ∨
            (rules.fallen_ace = true ∧
              self.get_modified_value modifiers d = 10 ∧
              other.get_modified_value modifiers d.opposite = 1))) ∨
        (rules.reverse = true ∧
          (other.get_modified_value modifiers d.opposite <
              self.get_modified_value modifiers d ∨
            (rules.fallen_ace = true ∧
              self.get_modified_value modifiers d = 1 ∧
              other.get_modified_value modifiers d.opposite = 10)))) := by
  unfold Card.is_flipped_by MAX_VALUE
  rcases rules.reverse with _ | _ <;>
    rcases rules.fallen_ace with _ | _ <;>
    simp <;>
    omega

/-! ### Shared concrete sample states used by the witnesses -/

def sampleCardLo : Card := ⟨1, 1, 1, 1, none⟩

def sampleCardHi : Card := ⟨9, 9, 9, 9, none⟩

def sampleHand (c : Card) : List HandSlot :=
  [some (1, c), some (2, c), some (3, c), some (4, c), some (5, c),
    none, none, none, none, none]

/-- A fully set-up game start: empty board, five known cards per hand,
both `actual_hand_sizes` counters at 5 (exactly what `set_cards_in_hand`
with `actual_size = 5` produces). -/
def sampleStart : GameState :=
  { board := List.replicate 9 none
    handsRed := sampleHand sampleCardHi
    handsBlue := sampleHand sampleCardLo
    modifiers := Modifiers.init
    sizeRed := 5
    sizeBlue := 5 }

/-- `sampleStart` after Blue plays the weak card into the center (cell 4). -/
def sampleMid : GameState :=
  (applyMoveState {} sampleStart ⟨.Blue, 0, 4⟩).getD sampleStart

/-- `sampleMid` after Red plays the strong card at cell 5, flipping Blue's
center card. -/
def sampleAfter2 : GameState :=
  (applyMoveState {} sampleMid ⟨.Red, 0, 5⟩).getD sampleStart

theorem sample_reach2 : ReachState {} sampleStart sampleAfter2 :=
  @ReachState.step {} sampleStart sampleMid sampleAfter2 ⟨.Red, 0, 5⟩
    (@ReachState.step {} sampleStart sampleStart sampleMid ⟨.Blue, 0, 4⟩
      (.refl _) (by decide) (by decide))
    (by decide) (by decide)

/-! ### Claim C1 (corrected) -/

/-- C1, counterexample: the claimed invariant "(cells owned) + (hand
counter) = 5 per player, for every state reachable by apply_move from the
initial game" is false.  The initial game (`Game::new`) starts with empty
hands and counters 0, so both sums are 0; and even from a fully set-up
5-on-5 start, Red's capture of Blue's center card yields a reachable state
where Blue's sum is 4 (and Red's is 6). -/
theorem c1_counterexample :
    (ReachState {} GameState.init GameState.init ∧
      GameState.init.boardCount .Red + GameState.init.size .Red ≠ 5) ∧
    (ReachState {} sampleStart sampleAfter2 ∧
      sampleAfter2.boardCount .Blue + sampleAfter2.size .Blue ≠ 5) :=
  ⟨⟨.refl _, by decide⟩, ⟨sample_reach2, by decide⟩⟩

/-- C1, amended: what `apply_move` actually conserves is the TOTAL of
occupied board cells plus both players' `actual_hand_sizes` counters —
each legal move fills one cell and decrements one counter, and flips only
transfer ownership.  Hence every state reachable from a set-up start with
counters 5+5 and an empty board totals 10; the per-player split 5/5 is not
preserved once a flip occurs, and the initial `Game::new` state has total 0,
not 10. -/
theorem c1_total_conservation {rules : Rules} {s0 s : GameState}
    (h : ReachState rules s0 s) : s.totalScore = s0.totalScore := by
  induction h with
  | refl => rfl
  | step hr hleg happ ih => rw [applyMoveState_totalScore hleg happ, ih]

theorem c1_witness :
    sampleAfter2.totalScore = sampleStart.totalScore ∧ sampleStart.totalScore = 10 :=
  ⟨c1_total_conservation sample_reach2, by decide⟩

/-! ### Claim C2 (confirmed) -/

/-- C2: after `apply_move`, an occupied neighbor of the target cell belongs
to the acting player exactly when the flip rule fires — with `reverse` off,
iff the played card's effective rank facing the neighbor strictly exceeds
the neighbor's effective rank facing the target, or `fallen_ace` is active
with neighbor rank exactly 10 against played rank exactly 1; with `reverse`
on, iff the played rank is strictly less, or `fallen_ace` is active with
neighbor rank exactly 1 against played rank exactly 10.  Otherwise the
neighbor keeps its owner, and its card never changes. -/
theorem flipCell_occupied {played : Card} {mover : Player} {modifiers : Modifiers}
    {rules : Rules} {placement i : Nat} {card : Card} {owner : Player}
    {dir : Direction} (hadj : adjacency i placement = some dir) :
    flipCell played mover modifiers rules placement i (some (card, owner)) =
      some (card,
        if card.is_flipped_by played dir modifiers rules then mover else owner) := by
  unfold flipCell
  rw [hadj]
  rcases hb : card.is_flipped_by played dir modifiers rules with _ | _ <;> simp [hb]

theorem c2_flip_rule {rules : Rules} {s : GameState} {m : GameMove}
    {s2 : GameState} {n : Nat} {dir : Direction} {card : Card} {owner : Player}
    {cid : Int} {played : Card}
    (happ : applyMoveState rules s m = some s2)
    (hslot : (s.hands m.player).getD m.card_idx none = some (cid, played))
    (hadj : adjacency n m.placement = some dir)
    (hcell : s.board.getD n none = some (card, owner)) :
    s2.board.getD n none =
      some (card,
        if (rules.reverse = false ∧
              (card.get_modified_value s.modifiers dir <
                  played.get_modified_value s.modifiers dir.opposite ∨
                (rules.fallen_ace = true ∧
                  card.get_modified_value s.modifiers dir = 10 ∧
                  played.get_modified_value s.modifiers dir.opposite = 1))) ∨
            (rules.reverse = true ∧
              (played.get_modified_value s.modifiers dir.opposite <
                  card.get_modified_value s.modifiers dir ∨
                (rules.fallen_ace = true ∧
                  card.get_modified_value s.modifiers dir = 1 ∧
                  played.get_modified_value s.modifiers dir.opposite = 10)))
          then m.player else owner) := by
  have hn : n < s.board.length := by
    by_contra hge
    rw [List.getD_eq_getElem?_getD, List.getElem?_eq_none (by omega)] at hcell
    simp at hcell
  have hcell2 : s.board[n]? = some (some (card, owner)) := by
    rw [List.getD_eq_getElem?_getD] at hcell
    rcases hg : s.board[n]? with _ | cell
    · exact absurd (List.getElem?_eq_none_iff.1 hg) (by omega)
    · rw [hg] at hcell
      simp only [Option.getD_some] at hcell
      rw [hcell]
  rcases applyMoveState_spec happ with
    ⟨cid2, played2, hslot2, hsz, hlen, hboard, hhand, hhand2, hsize, hsize2, hmod⟩
  rw [hslot] at hslot2
  have hpl2 : played2 = played := by
    simp only [Option.some.injEq, Prod.mk.injEq] at hslot2
    exact hslot2.2.symm
  rw [hpl2] at hboard
  have hne : n ≠ m.placement := adjacency_ne hadj
  rw [List.getD_eq_getElem?_getD, hboard, List.getElem?_set_ne (by omega),
    flipBoard_getElem?, hcell2]
  simp only [Option.map_some', Nat.zero_add, Option.getD_some]
  rw [flipCell_occupied hadj]
  exact congrArg (fun z => some (card, z)) (if_congr is_flipped_by_iff rfl rfl)

theorem c2_witness :
    applyMoveState {} sampleMid ⟨.Red, 0, 5⟩ = some sampleAfter2 ∧
    (sampleMid.hands .Red).getD 0 none = some (1, sampleCardHi) ∧
    adjacency 4 5 = some .East ∧
    sampleMid.board.getD 4 none = some (sampleCardLo, .Blue) ∧
    sampleAfter2.board.getD 4 none =
      some (sampleCardLo,
        if (({} : Rules).reverse = false ∧
              (sampleCardLo.get_modified_value sampleMid.modifiers .East <
                  sampleCardHi.get_modified_value sampleMid.modifiers
                    Direction.East.opposite ∨
                (({} : Rules).fallen_ace = true ∧
                  sampleCardLo.get_modified_value sampleMid.modifiers .East = 10 ∧
                  sampleCardHi.get_modified_value sampleMid.modifiers
                    Direction.East.opposite = 1))) ∨
            (({} : Rules).reverse = true ∧
              (sampleCardHi.get_modified_value sampleMid.modifiers
                  Direction.East.opposite <
                  sampleCardLo.get_modified_value sampleMid.modifiers .East ∨
                (({} : Rules).fallen_ace = true ∧
                  sampleCardLo.get_modified_value sampleMid.modifiers .East = 1 ∧
                  sampleCardHi.get_modified_value sampleMid.modifiers
                    Direction.East.opposite = 10)))
          then Player.Red else Player.Blue) :=
  ⟨by decide, by decide, by decide, by decide,
    @c2_flip_rule {} sampleMid ⟨.Red, 0, 5⟩ sampleAfter2 4 .East sampleCardLo .Blue
      1 sampleCardHi (by decide) (by decide) (by decide) (by decide)⟩

/-! ### Claim C4 (confirmed) -/

/-- C4: `evaluate_current_position_for` returns +100 / −100 / −30 on a full
board according to whether the queried player's score (cells owned plus
remaining hand counter) is strictly greater, strictly lower, or exactly
tied; on a board with an empty cell it returns the plain integer score
differential. -/
theorem c4_eval_position_spec (s : GameState) (p : Player) :
    s.eval_position p =
      if s.board.all Option.isSome then
        if s.size p.other + s.boardCount p.other < s.size p + s.boardCount p then
          .val 100
        else if s.size p + s.boardCount p < s.size p.other + s.boardCount p.other then
          .val (-100)
        else
          .val (-30)
      else
        .val (((s.size p + s.boardCount p : Nat) : Int) -
          ((s.size p.other + s.boardCount p.other : Nat) : Int)) := by
  unfold GameState.eval_position GameState.is_game_over GameState.score
  rcases h : s.board.all Option.isSome with _ | _
  · simp [h]
  · simp only [h, if_true]
    rcases hcmp : compare (s.size p + s.boardCount p)
        (s.size p.other + s.boardCount p.other) with _ | _ | _
    · rw [Nat.compare_eq_lt] at hcmp
      rw [if_neg (by omega), if_pos hcmp]
    · rw [Nat.compare_eq_eq] at hcmp
      rw [if_neg (by omega), if_neg (by omega)]
    · rw [Nat.compare_eq_gt] at hcmp
      rw [if_pos hcmp]

/-! ### Claim C5 (confirmed) -/

/-- C5: the effective rank is the base rank for the direction plus the
suit's modifier clamped into [0,10] (plus 0 for a suitless card); the sum
itself is not clamped again, so it can exceed 10 and can be negative. -/
theorem c5_effective_rank :
    (∀ (c : Card) (modifiers : Modifiers) (d : Direction),
        c.get_modified_value modifiers d =
          c.value d +
            (match c.suit with
              | some su => max (min (modifiers.get su) 10) 0
              | none => 0)) ∧
    (∃ (c : Card) (modifiers : Modifiers) (d : Direction),
        10 < c.get_modified_value modifiers d) ∧
    (∃ (c : Card) (modifiers : Modifiers) (d : Direction),
        c.get_modified_value modifiers d < 0) := by
  refine ⟨fun c modifiers d => ?_, ?_, ?_⟩
  · unfold Card.get_modified_value MAX_VALUE
    rcases c.suit with _ | su <;> simp
  · exact ⟨⟨10, 10, 10, 10, some .Primal⟩, ⟨5, 0, 0, 0⟩, .North, by decide⟩
  · exact ⟨⟨-1, -1, -1, -1, none⟩, Modifiers.init, .North, by decide⟩

/-! ### Claim C6 (confirmed) -/

/-- C6: applying a move and then undoing one move restores the game — and
in particular its current state (board, hands, suit modifiers and hand-size
counters) — exactly as it was before the move. -/
theorem c6_undo_roundtrip {g g2 : Game} {m : GameMove}
    (h : g.apply_move m = some g2) :
    g2.undo_last_moves 1 = g ∧
      (g2.undo_last_moves 1).current_state = g.current_state := by
  unfold Game.apply_move at h
  rcases happ : applyMoveState g.rules g.current_state m with _ | snew <;>
    rw [happ] at h
  · simp at h
  · simp only [Option.map_some', Option.some.injEq] at h
    subst h
    exact ⟨rfl, rfl⟩

def sampleGame : Game :=
  { history := [sampleStart], rules := {}, humanRed := false, humanBlue := true }

def sampleGameAfter : Game :=
  (sampleGame.apply_move ⟨.Blue, 0, 4⟩).getD sampleGame

theorem c6_witness :
    sampleGame.apply_move ⟨.Blue, 0, 4⟩ = some sampleGameAfter ∧
      sampleGameAfter.undo_last_moves 1 = sampleGame :=
  ⟨by decide,
    (@c6_undo_roundtrip sampleGame sampleGameAfter ⟨.Blue, 0, 4⟩ (by decide)).1⟩

/-! ### Claim C10 (confirmed) -/

/-- C10: on any board with an empty cell the evaluation is antisymmetric in
the player (the negamax sign-flip assumption); on a full board with tied
scores the antisymmetry fails — both players are scored −30. -/
theorem c10_eval_antisymmetry (s : GameState) (p : Player) :
    (s.is_game_over = false →
      s.eval_position p = (s.eval_position p.other).neg) ∧
    (s.is_game_over = true → s.score p = s.score p.other →
      s.eval_position p = .val (-30) ∧ s.eval_position p.other = .val (-30)) := by
  constructor
  · intro hover
    unfold GameState.eval_position
    rw [hover]
    simp only [Bool.false_eq_true, if_false, Player.other_other, Score.neg,
      Score.val.injEq]
    omega
  · intro hover htie
    unfold GameState.eval_position
    rw [hover]
    simp only [if_true, Player.other_other]
    constructor
    · rw [Nat.compare_eq_eq.2 htie]
    · rw [Nat.compare_eq_eq.2 htie.symm]

/-- A non-terminal sample: `sampleStart` has empty cells; a terminal tied
sample for the second part. -/
def sampleTied : GameState :=
  { board :=
      [some (sampleCardLo, .Red), some (sampleCardLo, .Blue),
        some (sampleCardLo, .Red), some (sampleCardLo, .Blue),
        some (sampleCardLo, .Red), some (sampleCardLo, .Blue),
        some (sampleCardLo, .Red), some (sampleCardLo, .Blue),
        some (sampleCardLo, .Red)]
    handsRed := List.replicate 10 none
    handsBlue := List.replicate 10 none
    modifiers := Modifiers.init
    sizeRed := 0
    sizeBlue := 1 }

theorem c10_witness :
    (sampleStart.is_game_over = false ∧
      sampleStart.eval_position .Red = (sampleStart.eval_position .Blue).neg) ∧
    (sampleTied.is_game_over = true ∧ sampleTied.score .Red = sampleTied.score .Blue ∧
      sampleTied.eval_position .Red = .val (-30) ∧
      sampleTied.eval_position .Blue = .val (-30)) :=
  ⟨⟨by decide, (c10_eval_antisymmetry sampleStart .Red).1 (by decide)⟩,
    ⟨by decide, by decide,
      (c10_eval_antisymmetry sampleTied .Red).2 (by decide) (by decide)⟩⟩

/-! ### Claim C7 (confirmed) -/

/-- C7: move enumeration emits exactly one candidate per (empty cell,
occupied hand slot) pair, board cells ascending then hand slots ascending;
with the first-card restriction it emits at most one move per empty cell,
for the lowest-index occupied slot; and the game-level enumeration applies
that restriction exactly when the acting player is flagged human and the
order rule is active. -/
theorem c7_move_enumeration (g : Game) (s : GameState) (p : Player) :
    (s.get_possible_moves p false =
      (List.range 9).flatMap fun pos =>
        if (s.board.getD pos none).isNone then
          ((List.range (s.hands p).length).filter fun j =>
              ((s.hands p).getD j none).isSome).map
            fun j => { player := p, card_idx := j, placement := pos }
        else []) ∧
    (s.get_possible_moves p true =
      (List.range 9).flatMap fun pos =>
        if (s.board.getD pos none).isNone then
          (((List.range (s.hands p).length).filter fun j =>
              ((s.hands p).getD j none).isSome).take 1).map
            fun j => { player := p, card_idx := j, placement := pos }
        else []) ∧
    (g.get_possible_moves p =
      g.current_state.get_possible_moves p (g.human p && g.rules.order)) :=
  ⟨get_possible_moves_false_eq s p, get_possible_moves_true_eq s p, rfl⟩

/-! ### Fail-soft alpha-beta machinery (claims C3, C8, C9) -/

namespace Score

theorem lt_neg_iff {a b : Score} : a < b.neg ↔ b < a.neg := by
  rw [lt_iff_le_not_le, lt_iff_le_not_le, le_neg_iff, neg_le_iff]

theorem neg_lt_iff {a b : Score} : a.neg < b ↔ b.neg < a := by
  rw [lt_iff_le_not_le, lt_iff_le_not_le, neg_le_iff, le_neg_iff]

end Score

/-- Fail-soft specification: the searched value `r` of a node with true
value `v` under window `(alpha, beta)` is exact inside the window, a lower
bound on `v` when it fails high, and an upper bound when it fails low. -/
def FailSoft (r v alpha beta : Score) : Prop :=
  (r ≤ alpha → v ≤ r) ∧ (beta ≤ r → r ≤ v) ∧ (alpha < r → r < beta → r = v)

theorem abGo_nil (rules : Rules) (s : GameState)
    (rec : GameState → Score → Score → List GameMove × Score)
    (beta alpha b : Score) (bm : List GameMove) :
    abGo rules s rec beta [] alpha b bm = (bm, b) := rfl

theorem abGo_cons_none {rules : Rules} {s : GameState} {m : GameMove}
    (rec : GameState → Score → Score → List GameMove × Score)
    (beta alpha b : Score) (bm rest : List GameMove)
    (happ : applyMoveState rules s m = none) :
    abGo rules s rec beta (m :: rest) alpha b bm =
      abGo rules s rec beta rest alpha b bm := by
  simp only [abGo, happ]

theorem abGo_cons_gt {rules : Rules} {s : GameState} {m : GameMove}
    {s2 : GameState}
    (rec : GameState → Score → Score → List GameMove × Score)
    {beta alpha b : Score} (bm rest : List GameMove)
    (happ : applyMoveState rules s m = some s2)
    (hsc : Score.scmp ((rec s2 beta.neg alpha.neg).2).neg b = .gt) :
    abGo rules s rec beta (m :: rest) alpha b bm =
      (if beta ≤ max alpha ((rec s2 beta.neg alpha.neg).2).neg then
        ([m], ((rec s2 beta.neg alpha.neg).2).neg)
      else
        abGo rules s rec beta rest (max alpha ((rec s2 beta.neg alpha.neg).2).neg)
          ((rec s2 beta.neg alpha.neg).2).neg [m]) := by
  simp only [abGo, happ, hsc]

theorem abGo_cons_eq {rules : Rules} {s : GameState} {m : GameMove}
    {s2 : GameState}
    (rec : GameState → Score → Score → List GameMove × Score)
    {beta alpha b : Score} (bm rest : List GameMove)
    (happ : applyMoveState rules s m = some s2)
    (hsc : Score.scmp ((rec s2 beta.neg alpha.neg).2).neg b = .eq) :
    abGo rules s rec beta (m :: rest) alpha b bm =
      (if beta ≤ max alpha b then ((bm ++ [m]), b)
      else abGo rules s rec beta rest (max alpha b) b (bm ++ [m])) := by
  simp only [abGo, happ, hsc]

theorem abGo_cons_lt {rules : Rules} {s : GameState} {m : GameMove}
    {s2 : GameState}
    (rec : GameState → Score → Score → List GameMove × Score)
    {beta alpha b : Score} (bm rest : List GameMove)
    (happ : applyMoveState rules s m = some s2)
    (hsc : Score.scmp ((rec s2 beta.neg alpha.neg).2).neg b = .lt) :
    abGo rules s rec beta (m :: rest) alpha b bm =
      (if beta ≤ max alpha b then (bm, b)
      else abGo rules s rec beta rest (max alpha b) b bm) := by
  simp only [abGo, happ, hsc]

/-- Fail-soft correctness of the sibling loop: the score it returns is a
fail-soft approximation of the fold of the true child values over the
starting best value, provided the recursive calls are themselves fail-soft
against the true value function `tv`. -/
theorem abGo_failsoft (rules : Rules) (s : GameState)
    (rec : GameState → Score → Score → List GameMove × Score)
    (tv : GameState → Score) (beta : Score)
    (hrec : ∀ (s2 : GameState) (a bb : Score), a < bb →
      FailSoft (rec s2 a bb).2 (tv s2) a bb) :
    ∀ (ms : List GameMove) (alpha b : Score) (bm : List GameMove),
      alpha < beta → b ≤ alpha →
      FailSoft (abGo rules s rec beta ms alpha b bm).2
        ((ms.filterMap fun mv =>
            (applyMoveState rules s mv).map fun s2 => (tv s2).neg).foldl max b)
        alpha beta := by
  intro ms
  induction ms with
  | nil =>
    intro alpha b bm hab hba
    rw [abGo_nil]
    simp only [List.filterMap_nil, List.foldl_nil]
    exact ⟨fun _ => le_refl _, fun _ => le_refl _, fun _ _ => rfl⟩
  | cons m rest ih =>
    intro alpha b bm hab hba
    rcases happ : applyMoveState rules s m with _ | s2
    · rw [abGo_cons_none rec beta alpha b bm rest happ]
      simp only [List.filterMap_cons, happ, Option.map_none']
      exact ih alpha b bm hab hba
    · -- the applied move contributes the value `vm`
      have hG := hrec s2 beta.neg alpha.neg (Score.neg_lt_neg_iff.2 hab)
      set r := (rec s2 beta.neg alpha.neg).2 with hr
      set mv := r.neg with hmv
      set vm := (tv s2).neg with hvm
      have g1 : beta ≤ mv → mv ≤ vm := fun h =>
        Score.neg_le_neg_iff.2 (hG.1 (Score.le_neg_iff.1 h))
      have g2 : mv ≤ alpha → vm ≤ mv := fun h =>
        Score.neg_le_neg_iff.2 (hG.2.1 (Score.neg_le_iff.1 h))
      have g3 : alpha < mv → mv < beta → mv = vm := fun h1 h2 =>
        congrArg Score.neg (hG.2.2 (Score.neg_lt_iff.1 h2) (Score.lt_neg_iff.1 h1))
      have hVcons : ((m :: rest).filterMap fun mvx =>
            (applyMoveState rules s mvx).map fun s2x => (tv s2x).neg).foldl max b =
          (rest.filterMap fun mvx =>
            (applyMoveState rules s mvx).map fun s2x => (tv s2x).neg).foldl max
            (max b vm) := by
        simp only [List.filterMap_cons, happ, Option.map_some', List.foldl_cons]
      rw [hVcons]
      set Frest := rest.filterMap fun mvx =>
        (applyMoveState rules s mvx).map fun s2x => (tv s2x).neg with hFrest
      rcases hsc : Score.scmp mv b with _ | _ | _
      · -- move_value < best_value: state unchanged
        have hlt : mv < b := Score.scmp_eq_lt_iff.1 hsc
        have hvmb : vm ≤ mv := g2 (le_trans (le_of_lt hlt) hba)
        have hmaxb : max b vm = b := max_eq_left (le_trans hvmb (le_of_lt hlt))
        rw [abGo_cons_lt rec bm rest happ hsc, max_eq_left hba,
          if_neg (not_le.2 hab), hmaxb]
        exact ih alpha b bm hab hba
      · -- move_value = best_value: the move is recorded, values unchanged
        have heq : mv = b := Score.scmp_eq_eq_iff.1 hsc
        have hvmb : vm ≤ b := heq ▸ g2 (heq ▸ hba)
        have hmaxb : max b vm = b := max_eq_left hvmb
        rw [abGo_cons_eq rec bm rest happ hsc, max_eq_left hba,
          if_neg (not_le.2 hab), hmaxb]
        exact ih alpha b (bm ++ [m]) hab hba
      · -- move_value > best_value: best value improves to mv
        have hgt : b < mv := Score.scmp_eq_gt_iff.1 hsc
        rw [abGo_cons_gt rec bm rest happ hsc]
        rcases le_or_lt beta (max alpha mv) with hbr | hbr
        · -- beta cutoff taken
          rw [if_pos hbr]
          have hbmv : beta ≤ mv := by
            rcases le_max_iff.1 hbr with h | h
            · exact absurd (lt_of_lt_of_le hab h) (lt_irrefl alpha)
            · exact h
          refine ⟨fun h => ?_, fun _ => ?_, fun _ h2 => ?_⟩
          · exact absurd (lt_of_lt_of_le hab (le_trans hbmv h)) (lt_irrefl alpha)
          · exact le_trans (g1 hbmv) (le_trans (le_max_right b vm)
              (Score.le_foldl_max Frest (max b vm)))
          · exact absurd (lt_of_le_of_lt hbmv h2) (lt_irrefl beta)
        · -- no cutoff: continue with alpha2 = max alpha mv, best = mv
          rw [if_neg (not_le.2 hbr)]
          have hmvb : mv < beta := lt_of_le_of_lt (le_max_right alpha mv) hbr
          rcases le_or_lt mv alpha with hca | hca
          · -- mv fails low: true value vm ≤ mv ≤ alpha
            have hvmmv : vm ≤ mv := g2 hca
            have hmax2 : max alpha mv = alpha := max_eq_left hca
            rw [hmax2]
            have hIH := ih alpha mv [m] hab hca
            have hmono : Frest.foldl max (max b vm) ≤ Frest.foldl max mv :=
              Score.foldl_max_mono (max_le (le_of_lt hgt) hvmmv)
            refine ⟨fun h => ?_, fun h => ?_, fun h1 h2 => ?_⟩
            · exact le_trans hmono (hIH.1 h)
            · have hR := hIH.2.1 h
              rw [Score.foldl_max_init] at hR
              rcases le_max_iff.1 hR with hR2 | hR2
              · exact absurd (lt_of_lt_of_le hab (le_trans h (le_trans hR2 hca)))
                  (lt_irrefl alpha)
              · rw [Score.foldl_max_init]
                exact le_trans hR2 (le_max_right _ _)
            · have hR := hIH.2.2 h1 h2
              rw [Score.foldl_max_init] at hR
              rw [Score.foldl_max_init]
              rcases max_choice mv (Frest.foldl max Score.negInf) with hch | hch
              · rw [hch] at hR
                exact absurd (lt_of_lt_of_le h1 (le_trans (le_of_eq hR) hca))
                  (lt_irrefl alpha)
              · rw [hch] at hR
                have hle : max b vm ≤ Frest.foldl max Score.negInf :=
                  le_of_lt (lt_of_le_of_lt
                    (le_trans (max_le (le_of_lt hgt) hvmmv) hca)
                    (lt_of_lt_of_le h1 (le_of_eq hR)))
                rw [max_eq_right hle]
                exact hR
          · -- mv inside the window: its searched value is exact
            have hmveq : mv = vm := g3 hca hmvb
            have hmax2 : max alpha mv = mv := max_eq_right (le_of_lt hca)
            have hmaxbvm : max b vm = mv := by
              rw [← hmveq]
              exact max_eq_right (le_of_lt hgt)
            rw [hmax2, hmaxbvm]
            have hIH := ih mv mv [m] hmvb (le_refl mv)
            refine ⟨fun h => hIH.1 (le_trans h (le_of_lt hca)),
              fun h => hIH.2.1 h, fun h1 h2 => ?_⟩
            rcases le_or_lt ((abGo rules s rec beta rest mv mv [m]).2) mv with hc | hc
            · exact le_antisymm (le_trans hc (Score.le_foldl_max Frest mv)) (hIH.1 hc)
            · exact hIH.2.2 hc h2

namespace Score

theorem negInf_lt_val (x : Int) : Score.negInf < Score.val x :=
  lt_of_le_of_ne (negInf_le _) (by simp)

theorem val_lt_posInf (x : Int) : Score.val x < Score.posInf :=
  lt_of_le_of_ne (le_posInf _) (by simp)

theorem negInf_lt_posInf : Score.negInf < Score.posInf :=
  lt_of_le_of_ne (negInf_le _) (by simp)

end Score

/-- Fail-soft correctness of the whole search: by induction on depth, the
score `alpha_beta` returns is a fail-soft approximation of the un-pruned
negamax value. -/
theorem alphaBeta_failsoft (g : SearchCtx) :
    ∀ (d : Nat) (s : GameState) (alpha beta : Score) (p : Player), alpha < beta →
      FailSoft (alphaBeta g d s alpha beta p).2 (negamax g d s p) alpha beta := by
  intro d
  induction d with
  | zero =>
    intro s alpha beta p hab
    simp only [alphaBeta, negamax]
    exact ⟨fun _ => le_refl _, fun _ => le_refl _, fun _ _ => rfl⟩
  | succ d ihd =>
    intro s alpha beta p hab
    rcases hms : stateMoves g s p with _ | ⟨m, rest⟩
    · simp only [alphaBeta, negamax, hms]
      exact ⟨fun _ => le_refl _, fun _ => le_refl _, fun _ _ => rfl⟩
    · simp only [alphaBeta, negamax, hms]
      exact abGo_failsoft g.rules s (fun s2 a b => alphaBeta g d s2 a b p.other)
        (fun s2 => negamax g d s2 p.other) beta
        (fun s2 a bb habb => ihd s2 a bb p.other habb)
        (m :: rest) alpha .negInf [] hab (Score.negInf_le alpha)

/-- With the full window `(-∞, +∞)` the pruned search returns exactly the
un-pruned negamax value. -/
theorem alphaBeta_full_window (g : SearchCtx) (d : Nat) (s : GameState)
    (p : Player) :
    (alphaBeta g d s .negInf .posInf p).2 = negamax g d s p := by
  have h := alphaBeta_failsoft g d s .negInf .posInf p Score.negInf_lt_posInf
  rcases hr : (alphaBeta g d s .negInf .posInf p).2 with _ | x | _
  · rw [hr] at h
    exact (Score.le_negInf_iff.1 (h.1 (le_refl _))).symm
  · rw [hr] at h
    exact h.2.2 (Score.negInf_lt_val x) (Score.val_lt_posInf x)
  · rw [hr] at h
    exact (Score.posInf_le_iff.1 (h.2.1 (le_refl _))).symm

/-- Once the depth bound exceeds the number of empty cells it is never
reached, so the negamax value no longer depends on it. -/
theorem negamax_depth_stable (g : SearchCtx) :
    ∀ (d e : Nat) (s : GameState) (p : Player),
      s.emptyCount < d → s.emptyCount < e →
      negamax g d s p = negamax g e s p := by
  intro d
  induction d with
  | zero =>
    intro e s p hd he
    omega
  | succ d ihd =>
    intro e s p hd he
    rcases e with _ | e
    · omega
    · rcases hms : stateMoves g s p with _ | ⟨m, rest⟩
      · simp only [negamax, hms]
      · simp only [negamax, hms]
        congr 1
        apply List.filterMap_congr
        intro mv hmv
        rcases happ : applyMoveState g.rules s mv with _ | s2
        · rfl
        · simp only [Option.map_some']
          have hmem : mv ∈ stateMoves g s p := by rw [hms]; exact hmv
          rcases mem_get_possible_moves hmem with ⟨hp, hplace, hempty, hocc⟩
          have hec := applyMoveState_emptyCount hempty happ
          rw [ihd e s2 p.other (by omega) (by omega)]

/-! ### Claim C3 (confirmed) -/

/-- C3: on any state whose empty cells number fewer than the fixed depth
bound 10 (true of every real 3×3 board), the score `alpha_beta` returns
with the full window at depth 10 equals the brute-force negamax value at
any other unexhausted depth bound `e` — i.e. alpha-beta pruning does not
change the returned score relative to the brute-force search over all
move sequences with the same static evaluation. -/
theorem c3_alphabeta_eq_bruteforce (g : SearchCtx) (s : GameState) (p : Player)
    (e : Nat) (h10 : s.emptyCount < 10) (he : s.emptyCount < e) :
    (alphaBeta g 10 s .negInf .posInf p).2 = negamax g e s p := by
  rw [alphaBeta_full_window]
  exact negamax_depth_stable g 10 e s p h10 he

def sampleCtx : SearchCtx := ⟨{}, false, false⟩

/-- A position with two empty cells and one card left for Red. -/
def sampleTwoEmpty : GameState :=
  { board := ((List.replicate 9 (some (sampleCardHi, Player.Red))).set 4 none).set 5 none
    handsRed := some (1, sampleCardHi) :: List.replicate 9 none
    handsBlue := List.replicate 10 none
    modifiers := Modifiers.init
    sizeRed := 1
    sizeBlue := 0 }

theorem c3_witness :
    sampleTwoEmpty.emptyCount < 10 ∧ sampleTwoEmpty.emptyCount < 11 ∧
      (alphaBeta sampleCtx 10 sampleTwoEmpty .negInf .posInf .Red).2 =
        negamax sampleCtx 11 sampleTwoEmpty .Red :=
  ⟨by decide, by decide,
    c3_alphabeta_eq_bruteforce sampleCtx sampleTwoEmpty .Red 11 (by decide) (by decide)⟩

/-! ### Finiteness of search values on search-safe states -/

/-- A score that is an actual number (not ±∞). -/
def Score.IsVal (a : Score) : Prop := ∃ x : Int, a = Score.val x

theorem Score.IsVal.neg {a : Score} (h : a.IsVal) : a.neg.IsVal := by
  rcases h with ⟨x, rfl⟩
  exact ⟨-x, rfl⟩

theorem Score.IsVal.ne_posInf {a : Score} (h : a.IsVal) : a ≠ .posInf := by
  rcases h with ⟨x, rfl⟩
  simp

theorem Score.IsVal.ne_negInf {a : Score} (h : a.IsVal) : a ≠ .negInf := by
  rcases h with ⟨x, rfl⟩
  simp

/-- If every move in the loop applies and every recursive call returns a
finite score, the loop returns a finite score (the first iteration replaces
the initial `NEG_INFINITY`). -/
theorem abGo_isVal (rules : Rules) (s : GameState)
    (rec : GameState → Score → Score → List GameMove × Score) (beta : Score) :
    ∀ (ms : List GameMove) (alpha b : Score) (bm : List GameMove),
      (∀ m ∈ ms, ∃ s2, applyMoveState rules s m = some s2 ∧
        ∀ a bb : Score, Score.IsVal (rec s2 a bb).2) →
      (Score.IsVal b ∨ (b = .negInf ∧ ms ≠ [])) →
      Score.IsVal (abGo rules s rec beta ms alpha b bm).2 := by
  intro ms
  induction ms with
  | nil =>
    intro alpha b bm hmoves hb
    rcases hb with hb | ⟨_, habs⟩
    · rw [abGo_nil]
      exact hb
    · exact absurd rfl habs
  | cons m rest ih =>
    intro alpha b bm hmoves hb
    rcases hmoves m (List.mem_cons_self m rest) with ⟨s2, happ, hval⟩
    have hrest : ∀ m2 ∈ rest, ∃ s3, applyMoveState rules s m2 = some s3 ∧
        ∀ a bb : Score, Score.IsVal (rec s3 a bb).2 :=
      fun m2 hm2 => hmoves m2 (List.mem_cons_of_mem m hm2)
    have hmv : Score.IsVal ((rec s2 beta.neg alpha.neg).2).neg :=
      (hval beta.neg alpha.neg).neg
    rcases hsc : Score.scmp ((rec s2 beta.neg alpha.neg).2).neg b with _ | _ | _
    · -- lt: the best value stays b, which must already be finite
      have hlt := Score.scmp_eq_lt_iff.1 hsc
      have hbval : Score.IsVal b := by
        rcases hb with hb | ⟨rfl, _⟩
        · exact hb
        · exact absurd hlt (not_lt.2 (Score.negInf_le _))
      rw [abGo_cons_lt rec bm rest happ hsc]
      split
      · exact hbval
      · exact ih _ b bm hrest (Or.inl hbval)
    · -- eq: best value stays b = move value, finite
      have heq := Score.scmp_eq_eq_iff.1 hsc
      have hbval : Score.IsVal b := heq ▸ hmv
      rw [abGo_cons_eq rec bm rest happ hsc]
      split
      · exact hbval
      · exact ih _ b (bm ++ [m]) hrest (Or.inl hbval)
    · -- gt: best value becomes the move value, finite
      rw [abGo_cons_gt rec bm rest happ hsc]
      split
      · exact hmv
      · exact ih _ ((rec s2 beta.neg alpha.neg).2).neg [m] hrest (Or.inl hmv)

/-- On a search-safe state, `alpha_beta` always returns a finite score. -/
theorem alphaBeta_isVal (g : SearchCtx) :
    ∀ (d : Nat) (s : GameState) (p : Player), s.SearchSafe p →
      ∀ (alpha beta : Score), Score.IsVal (alphaBeta g d s alpha beta p).2 := by
  intro d
  induction d with
  | zero =>
    intro s p hs alpha beta
    simp only [alphaBeta]
    exact eval_position_isVal s p
  | succ d ihd =>
    intro s p hs alpha beta
    rcases hms : stateMoves g s p with _ | ⟨m, rest⟩
    · simp only [alphaBeta, hms]
      exact eval_position_isVal s p
    · simp only [alphaBeta, hms]
      apply abGo_isVal
      · intro mv hmv
        have hmem : mv ∈ stateMoves g s p := by rw [hms]; exact hmv
        rcases applyMoveState_isSome_of_safe hs hmem with ⟨s2, happ⟩
        exact ⟨s2, happ, fun a bb =>
          ihd s2 p.other (searchSafe_step hs hmem happ) a bb⟩
      · exact Or.inr ⟨rfl, by simp⟩

/-- The root loop of `alpha_beta` under the full window (`beta = +∞`,
invariant `alpha = best_value`): every move whose true value `w` attains the
running maximum ends up in the returned move list, and an already-collected
list survives whenever the starting best value is already the maximum. -/
theorem abGo_root (rules : Rules) (s : GameState)
    (rec : GameState → Score → Score → List GameMove × Score)
    (w : GameMove → Score) :
    ∀ (ms : List GameMove) (b : Score) (bm : List GameMove),
      b ≠ .posInf →
      (∀ m ∈ ms, ∃ s2, applyMoveState rules s m = some s2 ∧
        ∀ alpha : Score, alpha ≠ .posInf →
          (((rec s2 Score.posInf.neg alpha.neg).2).neg ≠ .posInf ∧
            w m ≤ ((rec s2 Score.posInf.neg alpha.neg).2).neg ∧
            (alpha < ((rec s2 Score.posInf.neg alpha.neg).2).neg →
              ((rec s2 Score.posInf.neg alpha.neg).2).neg = w m))) →
      (∀ m ∈ ms, w m = (ms.map w).foldl max b →
        m ∈ (abGo rules s rec .posInf ms b b bm).1) ∧
      (b = (ms.map w).foldl max b →
        bm ⊆ (abGo rules s rec .posInf ms b b bm).1) := by
  intro ms
  induction ms with
  | nil =>
    intro b bm hb hmoves
    rw [abGo_nil]
    exact ⟨fun m hm => absurd hm (List.not_mem_nil m), fun _ => List.Subset.refl bm⟩
  | cons m rest ih =>
    intro b bm hb hmoves
    rcases hmoves m (List.mem_cons_self m rest) with ⟨s2, happ, hprops⟩
    rcases hprops b hb with ⟨hfin, hle, hexact⟩
    have hrest : ∀ m2 ∈ rest, ∃ s3, applyMoveState rules s m2 = some s3 ∧
        ∀ alpha : Score, alpha ≠ .posInf →
          (((rec s3 Score.posInf.neg alpha.neg).2).neg ≠ .posInf ∧
            w m2 ≤ ((rec s3 Score.posInf.neg alpha.neg).2).neg ∧
            (alpha < ((rec s3 Score.posInf.neg alpha.neg).2).neg →
              ((rec s3 Score.posInf.neg alpha.neg).2).neg = w m2)) :=
      fun m2 hm2 => hmoves m2 (List.mem_cons_of_mem m hm2)
    have hMcons : ((m :: rest).map w).foldl max b =
        (rest.map w).foldl max (max b (w m)) := by
      simp only [List.map_cons, List.foldl_cons]
    rw [hMcons]
    rcases hsc : Score.scmp ((rec s2 Score.posInf.neg b.neg).2).neg b with _ | _ | _
    · -- move value below best: w m < b as well, nothing changes
      have hlt := Score.scmp_eq_lt_iff.1 hsc
      have hwm : w m < b := lt_of_le_of_lt hle hlt
      have hmaxb : max b (w m) = b := max_eq_left (le_of_lt hwm)
      rw [abGo_cons_lt rec bm rest happ hsc, max_self,
        if_neg (fun hcut => hb (Score.posInf_le_iff.1 hcut)), hmaxb]
      refine ⟨fun m2 hm2 hM => ?_, (ih b bm hb hrest).2⟩
      rcases List.mem_cons.1 hm2 with rfl | hm2
      · exact absurd hM (ne_of_lt (lt_of_lt_of_le hwm
          (Score.le_foldl_max (rest.map w) b)))
      · exact (ih b bm hb hrest).1 m2 hm2 hM
    · -- move value equals best: the move is appended
      have heq := Score.scmp_eq_eq_iff.1 hsc
      have hwm : w m ≤ b := le_trans hle (le_of_eq heq)
      have hmaxb : max b (w m) = b := max_eq_left hwm
      rw [abGo_cons_eq rec bm rest happ hsc, max_self,
        if_neg (fun hcut => hb (Score.posInf_le_iff.1 hcut)), hmaxb]
      refine ⟨fun m2 hm2 hM => ?_, fun hM => ?_⟩
      · rcases List.mem_cons.1 hm2 with rfl | hm2
        · have hbM : b = (rest.map w).foldl max b :=
            le_antisymm (Score.le_foldl_max _ _) (hM ▸ hwm)
          exact (ih b (bm ++ [m2]) hb hrest).2 hbM
            (List.mem_append_right bm (List.mem_singleton.2 rfl))
        · exact (ih b (bm ++ [m]) hb hrest).1 m2 hm2 hM
      · exact fun x hx => (ih b (bm ++ [m]) hb hrest).2 hM
          (List.mem_append_left [m] hx)
    · -- move value above best: best value becomes the (exact) move value
      have hgt := Score.scmp_eq_gt_iff.1 hsc
      have hwm : ((rec s2 Score.posInf.neg b.neg).2).neg = w m := hexact hgt
      have hmax2 : max b ((rec s2 Score.posInf.neg b.neg).2).neg =
          ((rec s2 Score.posInf.neg b.neg).2).neg := max_eq_right (le_of_lt hgt)
      rw [abGo_cons_gt rec bm rest happ hsc, hmax2,
        if_neg (fun hcut => hfin (Score.posInf_le_iff.1 hcut)), hwm]
      have hmaxb : max b (w m) = w m := hwm ▸ max_eq_right (le_of_lt hgt)
      rw [hmaxb]
      have hwfin : w m ≠ .posInf := hwm ▸ hfin
      refine ⟨fun m2 hm2 hM => ?_, fun hM => ?_⟩
      · rcases List.mem_cons.1 hm2 with rfl | hm2
        · exact (ih (w m2) [m2] hwfin hrest).2 hM
            (List.mem_singleton.2 rfl)
        · exact (ih (w m) [m] hwfin hrest).1 m2 hm2 hM
      · exact absurd hM (ne_of_lt (lt_of_lt_of_le hgt
          (hwm ▸ Score.le_foldl_max (rest.map w) (w m))))

theorem Score.foldl_max_eq {l : List Score} {x : Score} (hx : x ∈ l)
    (hmax : ∀ y ∈ l, y ≤ x) : l.foldl max .negInf = x :=
  le_antisymm (Score.foldl_max_le (Score.negInf_le x) hmax)
    (Score.mem_le_foldl_max hx)

/-! ### Claim C8 (confirmed) -/

/-- C8: on a search-safe state, if two root moves have the same true
negamax value and that value is maximal among all root moves, `alpha_beta`
at the fixed depth 10 with the full window returns both of them in its
tied-move list. -/
theorem c8_tie_collection {g : SearchCtx} {s : GameState} {p : Player}
    {m1 m2 : GameMove} (hs : s.SearchSafe p)
    (h1 : m1 ∈ stateMoves g s p) (h2 : m2 ∈ stateMoves g s p)
    (heq : rootValue g 9 s p m1 = rootValue g 9 s p m2)
    (hmax : ∀ m ∈ stateMoves g s p, rootValue g 9 s p m ≤ rootValue g 9 s p m1) :
    m1 ∈ (alphaBeta g 10 s .negInf .posInf p).1 ∧
      m2 ∈ (alphaBeta g 10 s .negInf .posInf p).1 := by
  rcases hms : stateMoves g s p with _ | ⟨m0, rest⟩
  · rw [hms] at h1
    cases h1
  · have hgood : ∀ m ∈ m0 :: rest, ∃ s2,
        applyMoveState g.rules s m = some s2 ∧
        ∀ alpha : Score, alpha ≠ .posInf →
          ((((fun s2 a b => alphaBeta g 9 s2 a b p.other) s2 Score.posInf.neg
              alpha.neg).2).neg ≠ .posInf ∧
            rootValue g 9 s p m ≤
              (((fun s2 a b => alphaBeta g 9 s2 a b p.other) s2 Score.posInf.neg
                alpha.neg).2).neg ∧
            (alpha < (((fun s2 a b => alphaBeta g 9 s2 a b p.other) s2
                Score.posInf.neg alpha.neg).2).neg →
              (((fun s2 a b => alphaBeta g 9 s2 a b p.other) s2 Score.posInf.neg
                alpha.neg).2).neg = rootValue g 9 s p m)) := by
      intro m hm
      have hmem : m ∈ stateMoves g s p := by rw [hms]; exact hm
      obtain ⟨s2, happ⟩ := applyMoveState_isSome_of_safe hs hmem
      have hsafe2 := searchSafe_step hs hmem happ
      refine ⟨s2, happ, fun alpha halpha => ?_⟩
      obtain ⟨x, hx⟩ :=
        alphaBeta_isVal g 9 s2 p.other hsafe2 Score.posInf.neg alpha.neg
      have hwindow : (Score.posInf.neg : Score) < alpha.neg :=
        Score.neg_lt_neg_iff.2 (lt_of_le_of_ne (Score.le_posInf alpha) halpha)
      have hFS :=
        alphaBeta_failsoft g 9 s2 Score.posInf.neg alpha.neg p.other hwindow
      have hrv : rootValue g 9 s p m = (negamax g 9 s2 p.other).neg := by
        unfold rootValue
        rw [happ]
      have hrle : (alphaBeta g 9 s2 Score.posInf.neg alpha.neg p.other).2 ≤
          negamax g 9 s2 p.other := by
        rcases le_or_lt alpha.neg
            ((alphaBeta g 9 s2 Score.posInf.neg alpha.neg p.other).2) with hc | hc
        · exact hFS.2.1 hc
        · rcases le_or_lt ((alphaBeta g 9 s2 Score.posInf.neg alpha.neg p.other).2)
              Score.posInf.neg with hc2 | hc2
          · rw [Score.le_negInf_iff.1 hc2]
            exact Score.negInf_le _
          · exact le_of_eq (hFS.2.2 hc2 hc)
      refine ⟨?_, ?_, ?_⟩
      · rw [hx]
        simp [Score.neg]
      · rw [hrv]
        exact Score.neg_le_neg_iff.2 hrle
      · intro hlt
        have hc : (alphaBeta g 9 s2 Score.posInf.neg alpha.neg p.other).2 <
            alpha.neg := Score.lt_neg_iff.1 hlt
        have hc2 : Score.posInf.neg <
            (alphaBeta g 9 s2 Score.posInf.neg alpha.neg p.other).2 := by
          rw [hx]
          exact Score.negInf_lt_val x
        rw [hrv]
        exact congrArg Score.neg (hFS.2.2 hc2 hc)
    have hroot := abGo_root g.rules s
      (fun s2 a b => alphaBeta g 9 s2 a b p.other) (rootValue g 9 s p)
      (m0 :: rest) .negInf [] (by simp) hgood
    have h1c : m1 ∈ m0 :: rest := by rw [← hms]; exact h1
    have h2c : m2 ∈ m0 :: rest := by rw [← hms]; exact h2
    have hM : ((m0 :: rest).map (rootValue g 9 s p)).foldl max .negInf =
        rootValue g 9 s p m1 := by
      apply Score.foldl_max_eq (List.mem_map_of_mem _ h1c)
      intro y hy
      rcases List.mem_map.1 hy with ⟨m, hm, rfl⟩
      exact hmax m (by rw [hms]; exact hm)
    simp only [alphaBeta, hms]
    exact ⟨hroot.1 m1 h1c hM.symm, hroot.1 m2 h2c (heq.symm.trans hM.symm)⟩

theorem c8_witness :
    sampleTwoEmpty.SearchSafe .Red ∧
    (⟨.Red, 0, 4⟩ : GameMove) ∈ stateMoves sampleCtx sampleTwoEmpty .Red ∧
    (⟨.Red, 0, 5⟩ : GameMove) ∈ stateMoves sampleCtx sampleTwoEmpty .Red ∧
    rootValue sampleCtx 9 sampleTwoEmpty .Red ⟨.Red, 0, 4⟩ =
      rootValue sampleCtx 9 sampleTwoEmpty .Red ⟨.Red, 0, 5⟩ ∧
    (⟨.Red, 0, 4⟩ : GameMove) ∈
        (alphaBeta sampleCtx 10 sampleTwoEmpty .negInf .posInf .Red).1 ∧
    (⟨.Red, 0, 5⟩ : GameMove) ∈
        (alphaBeta sampleCtx 10 sampleTwoEmpty .negInf .posInf .Red).1 := by
  refine ⟨by decide, by decide, by decide, by decide, ?_⟩
  exact @c8_tie_collection sampleCtx sampleTwoEmpty .Red ⟨.Red, 0, 4⟩ ⟨.Red, 0, 5⟩
    (by decide) (by decide) (by decide) (by decide) (by decide)

/-! ### Non-emptiness of the tied-move list (claim C9) -/

/-- If every move in the loop applies, the loop's move list is nonempty as
soon as it starts nonempty or at least one move remains: the first compared
move value can never be below `NEG_INFINITY`. -/
theorem abGo_ne_nil (rules : Rules) (s : GameState)
    (rec : GameState → Score → Score → List GameMove × Score) (beta : Score) :
    ∀ (ms : List GameMove) (alpha b : Score) (bm : List GameMove),
      (∀ m ∈ ms, (applyMoveState rules s m).isSome) →
      (bm = [] → b = .negInf) →
      (bm ≠ [] ∨ ms ≠ []) →
      (abGo rules s rec beta ms alpha b bm).1 ≠ [] := by
  intro ms
  induction ms with
  | nil =>
    intro alpha b bm happly hinv hne
    rw [abGo_nil]
    rcases hne with hne | hne
    · exact hne
    · exact absurd rfl hne
  | cons m rest ih =>
    intro alpha b bm happly hinv hne
    rcases Option.isSome_iff_exists.1 (happly m (List.mem_cons_self m rest))
      with ⟨s2, happ⟩
    have hrest : ∀ m2 ∈ rest, (applyMoveState rules s m2).isSome :=
      fun m2 hm2 => happly m2 (List.mem_cons_of_mem m hm2)
    rcases hsc : Score.scmp ((rec s2 beta.neg alpha.neg).2).neg b with _ | _ | _
    · -- lt: impossible when the accumulator is still NEG_INFINITY
      have hlt := Score.scmp_eq_lt_iff.1 hsc
      have hbm : bm ≠ [] := by
        intro h0
        rw [hinv h0] at hlt
        exact absurd hlt (not_lt.2 (Score.negInf_le _))
      rw [abGo_cons_lt rec bm rest happ hsc]
      split
      · exact hbm
      · exact ih _ b bm hrest (fun h0 => absurd h0 hbm) (Or.inl hbm)
    · rw [abGo_cons_eq rec bm rest happ hsc]
      have hbm2 : bm ++ [m] ≠ [] := by simp
      split
      · exact hbm2
      · exact ih _ b (bm ++ [m]) hrest (fun h0 => absurd h0 hbm2) (Or.inl hbm2)
    · rw [abGo_cons_gt rec bm rest happ hsc]
      have hbm2 : [m] ≠ [] := by simp
      split
      · exact hbm2
      · exact ih _ ((rec s2 beta.neg alpha.neg).2).neg [m] hrest
          (fun h0 => absurd h0 hbm2) (Or.inl hbm2)

/-- On a search-safe state with at least one legal move and positive depth,
`alpha_beta` returns at least one best move. -/
theorem alphaBeta_fst_ne_nil {g : SearchCtx} {s : GameState} {p : Player}
    {d : Nat} {alpha beta : Score} (hs : s.SearchSafe p)
    (hms : stateMoves g s p ≠ []) (hd : d ≠ 0) :
    (alphaBeta g d s alpha beta p).1 ≠ [] := by
  rcases d with _ | d
  · exact absurd rfl hd
  · rcases hmoves : stateMoves g s p with _ | ⟨m0, rest⟩
    · exact absurd hmoves hms
    · simp only [alphaBeta, hmoves]
      apply abGo_ne_nil
      · intro m hm
        have hmem : m ∈ stateMoves g s p := by rw [hmoves]; exact hm
        rcases applyMoveState_isSome_of_safe hs hmem with ⟨s2, happ⟩
        rw [happ]
        rfl
      · intro _
        rfl
      · exact Or.inr (by simp)

theorem combine_isSome {s1 s2 : MoveSelection}
    (h : s1.mv.isSome ∨ s2.mv.isSome) :
    (combine_move_selection s1 s2).mv.isSome := by
  unfold combine_move_selection
  rcases hs1 : s1.mv with _ | m1 <;> rcases hs2 : s2.mv with _ | m2 <;>
    simp_all [Option.isNone]
  split <;> simp [hs1, hs2]

/-- Folding the combiner over selections that all carry a move yields a
selection that carries a move. -/
theorem foldl_combine_isSome :
    ∀ (l : List MoveSelection) (init : MoveSelection),
      (∀ sel ∈ l, sel.mv.isSome) → (init.mv.isSome ∨ l ≠ []) →
      ((l.foldl combine_move_selection init).mv).isSome := by
  intro l
  induction l with
  | nil =>
    intro init hall hne
    rcases hne with hne | hne
    · exact hne
    · exact absurd rfl hne
  | cons sel rest ih =>
    intro init hall hne
    simp only [List.foldl_cons]
    apply ih
    · exact fun s hs => hall s (List.mem_cons_of_mem sel hs)
    · exact Or.inl (combine_isSome (Or.inr (hall sel (List.mem_cons_self sel rest))))

/-! ### Claim C9 (confirmed) -/

/-- C9: `get_best_move_for_player` returns `None` as the recommended move
(alongside the raw score) exactly when the player has no legal move in the
current state — the no-move condition is an ordinary return value, not an
error — and when Phase 1 returns exactly one best move it is returned
directly, with no win-ratio (the Monte-Carlo phase is skipped).  The
Monte-Carlo win ratio of a candidate is abstracted by the parameter
`ratio`; both properties hold for every such function. -/
theorem c9_best_move_contract (ratio : GameMove → Rat) (g : Game) (p : Player)
    (hs : g.current_state.SearchSafe p) :
    ((get_best_move_for_player ratio g p).1 = none ↔
      stateMoves g.ctx g.current_state p = []) ∧
    (∀ (m : GameMove) (sc : Score),
      alphaBeta g.ctx 10 g.current_state .negInf .posInf p = ([m], sc) →
      get_best_move_for_player ratio g p = (some m, (sc, none))) := by
  have hkey : get_best_move_for_player ratio g p =
      (match (alphaBeta g.ctx 10 g.current_state .negInf .posInf p).1,
          (alphaBeta g.ctx 10 g.current_state .negInf .posInf p).2 with
        | [], score => (none, (score, none))
        | [m], score => (some m, (score, none))
        | best_moves, score =>
          let sel := (best_moves.map fun m =>
            MoveSelection.mk (some m) (ratio m)).foldl
            combine_move_selection no_move_selection
          (sel.mv, (score, some sel.win_ratio))) := rfl
  constructor
  · rcases hbm : (alphaBeta g.ctx 10 g.current_state .negInf .posInf p).1
      with _ | ⟨ma, tail⟩
    · constructor
      · intro _
        by_contra hne
        exact alphaBeta_fst_ne_nil hs hne (by simp) hbm
      · intro _
        rw [hkey, hbm]
    · have hne : stateMoves g.ctx g.current_state p ≠ [] := by
        intro h0
        have hnil : (alphaBeta g.ctx 10 g.current_state .negInf .posInf p).1 = [] := by
          simp only [alphaBeta, h0]
        rw [hbm] at hnil
        cases hnil
      rcases tail with _ | ⟨mb, tail2⟩
      · constructor
        · intro hnone
          rw [hkey, hbm] at hnone
          cases hnone
        · intro h0
          exact absurd h0 hne
      · constructor
        · intro hnone
          rw [hkey, hbm] at hnone
          have hsome : ((((ma :: mb :: tail2).map fun m =>
              MoveSelection.mk (some m) (ratio m)).foldl
              combine_move_selection no_move_selection).mv).isSome := by
            apply foldl_combine_isSome
            · intro sel hsel
              rcases List.mem_map.1 hsel with ⟨m, hm, rfl⟩
              rfl
            · exact Or.inr (by simp)
          rw [Option.isSome_iff_ne_none] at hsome
          exact absurd hnone hsome
        · intro h0
          exact absurd h0 hne
  · intro m sc hab
    rw [hkey, hab]

def sampleGame2 : Game :=
  { history := [sampleTwoEmpty], rules := {}, humanRed := false, humanBlue := false }

theorem c9_witness :
    (get_best_move_for_player (fun _ => 0) sampleGame2 .Red).1 = none ↔
      stateMoves sampleGame2.ctx sampleGame2.current_state .Red = [] :=
  (c9_best_move_contract (fun _ => 0) sampleGame2 .Red (by decide)).1
